import Mathlib

/-!
Shallow embedding of the namespace registry and dependency resolver/loader of
`src/closure/goog/base.js` (Closure Library bootstrap, uncompiled debug mode:
`COMPILED = false`, `goog.ENABLE_DEBUG_LOADER = true`).

JavaScript objects used as string-keyed maps (insertion-ordered, as `for..in`
iterates them) are modelled as association lists; objects used as sets of
strings (`goog.implicitNamespaces_`, `deps.visited`, `deps.written`,
`seenScript`, `goog.included_`) are modelled as lists of strings with
membership as the set predicate.  The global object tree reachable from
`goog.global` is modelled by the inductive `JSVal`.  Thrown `Error`s are
modelled by the inductive `JsError`; a computation that can throw returns the
mutated state together with `Option JsError` (mutations performed before a
throw persist, as they do in JavaScript).
-/

namespace ClosureBase

/-- First-match association-list lookup, the semantics of reading a property
of a JS object used as a map (each key occurs at most once because `aset`
overwrites in place). -/
def alookup {β : Type} : List (String × β) → String → Option β
  | [], _ => none
  | (k', v') :: rest, k => if k' = k then some v' else alookup rest k

/-- Property write on a JS object used as a map: an existing key keeps its
insertion position (its value is replaced), a new key is appended, matching
`for..in` enumeration order. -/
def aset {β : Type} : List (String × β) → String → β → List (String × β)
  | [], k, v => [(k, v)]
  | (k', v') :: rest, k, v =>
    if k' = k then (k, v) :: rest else (k', v') :: aset rest k v

/-- Adding a key to a JS object used as an insertion-ordered set
(`obj[key] = true`): a present key keeps its position, a new key is appended. -/
def addKey (l : List String) (k : String) : List String :=
  if k ∈ l then l else l ++ [k]

/-- Helper for `splitDots`: consume the characters, cutting a segment at
every `'.'`; `acc` holds the current segment reversed. -/
def splitDotsAux : List Char → List Char → List String
  | [], acc => [String.mk acc.reverse]
  | ch :: rest, acc =>
    if ch = '.' then String.mk acc.reverse :: splitDotsAux rest []
    else splitDotsAux rest (ch :: acc)

/-- `name.split('.')`: split at every dot; `""` yields `[""]`, consecutive
dots yield empty segments, exactly as in JavaScript. -/
def splitDots (s : String) : List String :=
  splitDotsAux s.data []

/-- `relPath.replace(/\\/g, '/')`: replace every backslash character by a
forward slash. -/
def normPath (s : String) : String :=
  String.mk (s.data.map (fun c => if c = '\\' then '/' else c))

/-- A JavaScript value as far as the loader observes it: `undef` (absent
property / `undefined`), `jnull` (`null`), an object with insertion-ordered
properties, or some other primitive of which only truthiness matters. -/
inductive JSVal : Type where
  | undef : JSVal
  | jnull : JSVal
  | obj : List (String × JSVal) → JSVal
  | prim : Bool → JSVal

/-- Reading a property: only objects have properties; reading a property of a
primitive yields `undefined` (boxing), and the loader never reads a property
of `null`/`undefined` (that would throw before any branch we model). -/
def getField : JSVal → String → JSVal
  | JSVal.obj fs, k => (alookup fs k).getD JSVal.undef
  | _, _ => JSVal.undef

/-- Writing a property.  Writing on a non-object is a silent no-op
(sloppy-mode JavaScript discards the assignment). -/
def setField : JSVal → String → JSVal → JSVal
  | JSVal.obj fs, k, v => JSVal.obj (aset fs k v)
  | cur, _, _ => cur

/-- JavaScript truthiness restricted to the values we model: `undefined` and
`null` are falsy, every object is truthy, other primitives carry their own
truthiness. -/
def truthy : JSVal → Bool
  | JSVal.undef => false
  | JSVal.jnull => false
  | JSVal.obj _ => true
  | JSVal.prim b => b

/-- `goog.isDefAndNotNull` (base.js:809): `val != null`, i.e. neither
`undefined` nor `null`. -/
def isDefAndNotNull : JSVal → Bool
  | JSVal.undef => false
  | JSVal.jnull => false
  | _ => true

/-- Loop body of `goog.getObjectByName` (base.js:212): walk the split name;
`parts.shift()` returning the empty string ends the loop (empty string is
falsy), a segment that is `undefined` or `null` makes the whole lookup return
`null`. -/
def getParts : List String → JSVal → JSVal
  | [], cur => cur
  | part :: rest, cur =>
    if part = "" then cur
    else if isDefAndNotNull (getField cur part) then getParts rest (getField cur part)
    else JSVal.jnull

/-- `goog.getObjectByName(name)` looked up in the global tree `g`. -/
def getObjectByName (name : String) (g : JSVal) : JSVal :=
  getParts (splitDots name) g

/-- Loop body of `goog.exportPath_` (base.js:173): walk the split name,
descending through truthy values and creating fresh empty objects otherwise;
if the last part is reached and an explicit object was supplied it is stored
there.  A shifted empty-string part ends the loop (it is falsy). -/
def exportParts : List String → Option JSVal → JSVal → JSVal
  | [], _, cur => cur
  | part :: rest, optObj, cur =>
    if part = "" then cur
    else
      match rest, optObj with
      | [], some v => setField cur part v
      | _, _ =>
        if truthy (getField cur part) then
          setField cur part (exportParts rest optObj (getField cur part))
        else
          setField cur part (exportParts rest optObj (JSVal.obj []))

/-- `goog.exportPath_(name, opt_object)` applied to the global tree `g`. -/
def exportPath (name : String) (optObj : Option JSVal) (g : JSVal) : JSVal :=
  exportParts (splitDots name) optObj g

/-- `name.substring(0, name.lastIndexOf('.'))`: everything before the last
dot, or the empty string when there is no dot. -/
def parentNamespace (name : String) : String :=
  String.intercalate "." ((splitDots name).dropLast)

/-- `goog.dependencies_` (base.js:501): the dependency index.  `visited` and
`written` are process-wide records living in the same object. -/
structure Deps : Type where
  pathToNames : List (String × List String)
  nameToPath : List (String × String)
  requiresIdx : List (String × List String)
  visited : List String
  written : List String

/-- The process-wide mutable loader state: the global object tree, the
implicit-namespace set `goog.implicitNamespaces_`, the request record
`goog.included_`, the dependency index `goog.dependencies_` and
`goog.basePath`. -/
structure LoaderState : Type where
  global : JSVal
  implicitNamespaces : List String
  included : List String
  deps : Deps
  basePath : String

/-- The state at process start (before any registration): empty global
object, empty sets and an empty dependency index, `goog.basePath = ''`. -/
def initState : LoaderState :=
  { global := JSVal.obj []
    implicitNamespaces := []
    included := []
    deps := { pathToNames := [], nameToPath := [], requiresIdx := [],
              visited := [], written := [] }
    basePath := "" }

/-- `goog.isProvided_(name)` (base.js:143): the name is not recorded as an
implicit namespace and `goog.getObjectByName(name)` is truthy. -/
def isProvidedB (st : LoaderState) (name : String) : Bool :=
  !(st.implicitNamespaces.contains name) && truthy (getObjectByName name st.global)

/-- The thrown `Error`s of base.js, identified by their message and carrying
the offending name or path:
`'Namespace "x" already declared.'` (goog.provide, base.js:102),
`'goog.require could not find: x'` (goog.require, base.js:335),
`'Undefined nameToPath for x'` (visitNode, base.js:620),
`'Undefined script input'` (goog.writeScripts_, base.js:642). -/
inductive JsError : Type where
  | duplicateNamespace : String → JsError
  | requireCouldNotFind : String → JsError
  | undefinedNameToPath : String → JsError
  | undefinedScriptInput : JsError

/-- The `while` loop of `goog.provide` (base.js:107): walk up through the
proper dotted ancestors of the name, stopping at the first one whose
`getObjectByName` is truthy, adding each passed ancestor to the
implicit-namespace set.  Each step strictly shortens the string, so
`name.length + 1` units of fuel are enough for the loop to run to its real
end. -/
def implicitLoop (g : JSVal) : Nat → String → List String → List String
  | 0, _, impl => impl
  | fuel + 1, ns, impl =>
    let p := parentNamespace ns
    if p = "" then impl
    else if truthy (getObjectByName p g) then impl
    else implicitLoop g fuel p (addKey impl p)

/-- `goog.provide(name)` (base.js:93, uncompiled): throw if the name is
already provided (before any mutation), else drop the name from the implicit
set, record the not-yet-materialized ancestors as implicit, and materialize
the name via `goog.exportPath_`.  The returned state is the state after the
call; a `some` error is the thrown `Error`. -/
def provide (name : String) (st : LoaderState) : LoaderState × Option JsError :=
  if isProvidedB st name then
    (st, some (JsError.duplicateNamespace name))
  else
    let impl0 := st.implicitNamespaces.filter (fun s => s ≠ name)
    let impl1 := implicitLoop st.global (name.length + 1) name impl0
    ({ st with implicitNamespaces := impl1
               global := exportPath name none st.global }, none)

/-- `goog.addDependency(relPath, provides, requires)` (base.js:250): record
the provides and requires of one module.  The JS `for (...; x = arr[i]; i++)`
loops stop at the first falsy (empty-string) element, hence `takeWhile`. -/
def addDependency (relPath : String) (provides requiresL : List String)
    (d : Deps) : Deps :=
  let path := normPath relPath
  let d1 := (provides.takeWhile (fun s => s ≠ "")).foldl
    (fun (d : Deps) provide =>
      { d with nameToPath := aset d.nameToPath provide path
               pathToNames := aset d.pathToNames path
                 (addKey ((alookup d.pathToNames path).getD []) provide) }) d
  (requiresL.takeWhile (fun s => s ≠ "")).foldl
    (fun (d : Deps) req =>
      { d with requiresIdx := aset d.requiresIdx path
                 (addKey ((alookup d.requiresIdx path).getD []) req) }) d1

/-- The requires recorded for a module path (`deps.requires[path]`,
enumerated in insertion order); a module with no record has none. -/
def reqList (st : LoaderState) (path : String) : List String :=
  (alookup st.deps.requiresIdx path).getD []

/-- The per-pass walk state of `goog.writeScripts_`: the process-wide
`deps.visited` record threaded through the walk, and the pass-local `scripts`
output array (`seenScript` is exactly membership in `scripts`, which the
source keeps deduplicated). -/
structure Walk : Type where
  visited : List String
  scripts : List String

/-- The guarded `scripts.push(path)` of `visitNode`: push only if the path is
not yet in `seenScript`. -/
def pushScript (p : String) (w : Walk) : Walk :=
  if p ∈ w.scripts then w else { w with scripts := w.scripts ++ [p] }

/-- The `for (var requireName in deps.requires[path])` loop of `visitNode`
(base.js:612): skip requires that are already provided, throw
`'Undefined nameToPath for …'` on a require with no owning module, and
recurse (through the supplied `visit`) into the owning module otherwise.
`none` propagates fuel exhaustion of `visit`. -/
def runReqs (st : LoaderState) (visit : String → Walk → Option (Walk × Option JsError)) :
    List String → Walk → Option (Walk × Option JsError)
  | [], w => some (w, none)
  | r :: rs, w =>
    if isProvidedB st r then runReqs st visit rs w
    else
      match alookup st.deps.nameToPath r with
      | none => some (w, some (JsError.undefinedNameToPath r))
      | some owner =>
        match visit owner w with
        | none => none
        | some (w', some e) => some (w', some e)
        | some (w', none) => runReqs st visit rs w'

/-- `visitNode(path)` of `goog.writeScripts_` (base.js:596): return if the
path is already written; if it is already visited (a cycle, or a node
finished earlier in this pass) emit it at most once and return; otherwise
mark it visited, process its requires recursively and emit it afterwards
(post-order).  `none` means the fuel bound was reached, which
`visitN_fuel_sufficient` below proves impossible at the fuel used by
`writeScripts`. -/
def visitN (st : LoaderState) : Nat → String → Walk → Option (Walk × Option JsError)
  | 0, _, _ => none
  | fuel + 1, path, w =>
    if path ∈ st.deps.written then some (w, none)
    else if path ∈ w.visited then some (pushScript path w, none)
    else
      let w1 : Walk := { w with visited := path :: w.visited }
      match runReqs st (visitN st fuel) (reqList st path) w1 with
      | none => none
      | some (w2, some e) => some (w2, some e)
      | some (w2, none) => some (pushScript path w2, none)

/-- The `for (var path in goog.included_)` seed loop of `goog.writeScripts_`
(base.js:632): visit every requested path that is not already written; a
thrown error aborts the loop (with the visited-set mutations kept). -/
def includedLoop (st : LoaderState) (fuel : Nat) :
    List String → Walk → Option (Walk × Option JsError)
  | [], w => some (w, none)
  | p :: ps, w =>
    if p ∈ st.deps.written then includedLoop st fuel ps w
    else
      match visitN st fuel p w with
      | none => none
      | some (w', some e) => some (w', some e)
      | some (w', none) => includedLoop st fuel ps w'

/-- The result of a run that may inject scripts: the state after the run, the
sources passed to the injection capability (in order), and the thrown error
if any. -/
structure RunResult : Type where
  state : LoaderState
  injected : List String
  error : Option JsError

@[simp] def setVisited (st : LoaderState) (v : List String) : LoaderState :=
  { st with deps := { st.deps with visited := v } }

@[simp] def addWritten (st : LoaderState) (src : String) : LoaderState :=
  { st with deps := { st.deps with written := st.deps.written ++ [src] } }

/-- The injection loop of `goog.writeScripts_` (base.js:638) together with
`goog.importScript_` (base.js:556): an empty script entry throws
`'Undefined script input'`; otherwise `goog.basePath + script` is passed to
the injection capability unless it is already written, and marked written
exactly when the capability reports success. -/
def injectLoop (inject : String → Bool) :
    LoaderState → List String → List String → RunResult
  | st, [], acc => ⟨st, acc.reverse, none⟩
  | st, s :: rest, acc =>
    if s = "" then ⟨st, acc.reverse, some JsError.undefinedScriptInput⟩
    else
      let src := st.basePath ++ s
      if src ∈ st.deps.written then injectLoop inject st rest acc
      else if inject src then injectLoop inject (addWritten st src) rest (src :: acc)
      else injectLoop inject st rest (src :: acc)

/-- The fuel handed to each seed visit: one more than the number of distinct
module paths a walk can mark, proved sufficient below. -/
def walkFuel (st : LoaderState) : Nat :=
  st.deps.nameToPath.length + 2

/-- `goog.writeScripts_()` (base.js:590): walk all requested paths building
the ordered `scripts` array, then inject the scripts in order.  The
`deps.visited` mutations of the walk persist in the returned state even when
the walk throws. -/
def writeScripts (inject : String → Bool) (st : LoaderState) : Option RunResult :=
  match includedLoop st (walkFuel st) st.included ⟨st.deps.visited, []⟩ with
  | none => none
  | some (w, some e) => some ⟨setVisited st w.visited, [], some e⟩
  | some (w, none) => some (injectLoop inject (setVisited st w.visited) w.scripts [])

/-- `goog.requireNs(name)` models `goog.require(name)` (base.js:313,
uncompiled, debug loader enabled): return immediately when the name is
already provided; else look the owner path up in the dependency index, record
it in `goog.included_` and run `goog.writeScripts_`; with no owner recorded,
throw `'goog.require could not find: name'`. -/
def requireNs (name : String) (inject : String → Bool) (st : LoaderState) :
    Option RunResult :=
  if isProvidedB st name then some ⟨st, [], none⟩
  else
    match alookup st.deps.nameToPath name with
    | some path =>
      writeScripts inject { st with included := addKey st.included path }
    | none => some ⟨st, [], some (JsError.requireCouldNotFind name)⟩

/-- The effective dependency edge the walk follows: module `a` records a
require `r` that is not already provided and whose registered owner is module
`b`.  (Requires that are already provided are skipped by `visitNode` and
induce no edge.) -/
def edgeRel (st : LoaderState) (a b : String) : Prop :=
  ∃ r, r ∈ reqList st a ∧ isProvidedB st r = false ∧
    alookup st.deps.nameToPath r = some b

/-- `b` occurs strictly before (an occurrence of) `a` in the list `l`. -/
def Before (b a : String) (l : List String) : Prop :=
  ∃ l₁ l₂, l = l₁ ++ a :: l₂ ∧ b ∈ l₁

/-- An injection capability that always succeeds. -/
def alwaysInject : String → Bool := fun _ => true

/-- Dependency index in which `m1.js` and then `m2.js` both register
namespace `n` as provided. -/
def depsConflict : Deps :=
  addDependency "m2.js" ["n"] [] (addDependency "m1.js" ["n"] [] initState.deps)

/-- Dependency index with a single module whose require has no registered
owner. -/
def depsUnresolved : Deps :=
  addDependency "m.js" ["x"] ["nothing"] initState.deps

/-- State with `depsUnresolved` registered. -/
def stateUnresolved : LoaderState :=
  { initState with deps := depsUnresolved }

/-- The two-module requires-cycle of the spec: `a.js` provides `nsA` and
requires `nsB`, `b.js` provides `nsB` and requires `nsA`. -/
def depsCyc : Deps :=
  addDependency "b.js" ["nsB"] ["nsA"]
    (addDependency "a.js" ["nsA"] ["nsB"] initState.deps)

/-- State with the two-module cycle registered. -/
def stateCyc : LoaderState :=
  { initState with deps := depsCyc }

/-- Two-module chain: `m2.js` provides `y` and requires `x`, which `m1.js`
provides. -/
def depsChain : Deps :=
  addDependency "m2.js" ["y"] ["x"] (addDependency "m1.js" ["x"] [] initState.deps)

/-- State with the two-module chain registered. -/
def stateChain : LoaderState :=
  { initState with deps := depsChain }

/-- Dependency graph for the ordering counterexample: `A.js` provides `nsA`
and requires `r2` then `r1` in that order; `C.js` provides `r2` and requires
`nsA` (a cycle through `A.js`); `B.js` provides `r1` and requires nothing.
`A.js` and `B.js` are not on a common cycle. -/
def depsCycleSkew : Deps :=
  addDependency "B.js" ["r1"] []
    (addDependency "C.js" ["r2"] ["nsA"]
      (addDependency "A.js" ["nsA"] ["r2", "r1"] initState.deps))

/-- State with the ordering-counterexample graph registered. -/
def stateCycleSkew : LoaderState :=
  { initState with deps := depsCycleSkew }

/-- Whether a value is an object (a queryable container). -/
def isObj : JSVal → Bool
  | JSVal.obj _ => true
  | _ => false

/-- Result of requesting `x` against `stateUnresolved` (the pass throws
`Undefined nameToPath for nothing` after marking `m.js` visited). -/
def runC9a : RunResult :=
  (requireNs "x" alwaysInject stateUnresolved).getD ⟨initState, [], none⟩

/-- Result of requesting `x` a second time, immediately after `runC9a`. -/
def runC9b : RunResult :=
  (requireNs "x" alwaysInject runC9a.state).getD ⟨initState, [], none⟩

/-- State right after a fresh `goog.provide('a.b.c')`. -/
def stateABC : LoaderState :=
  (provide "a.b.c" initState).1

/-- Walk-state extension: the visited record only grows and the scripts list
is only appended to (every step of the walk has this shape). -/
def wle (w w' : Walk) : Prop :=
  (∀ x ∈ w.visited, x ∈ w'.visited) ∧ ∃ t, w'.scripts = w.scripts ++ t

/-- The module paths that can be reached as owners during a walk: the values
of the provider index, deduplicated. -/
def targetsOf (st : LoaderState) : List String :=
  (st.deps.nameToPath.map Prod.snd).dedup

/-- Number of owner paths not yet visited — the quantity that strictly
decreases whenever the walk marks an owner visited. -/
def walkMeasure (st : LoaderState) (w : Walk) : Nat :=
  ((targetsOf st).filter (fun p => decide (p ∉ w.visited))).length

/-- Invariant of the walk relative to the ghost stack `anc` of modules whose
`visitNode` call is still in progress: every visited module is written,
already emitted, or on the stack. -/
def VisInv (st : LoaderState) (anc : List String) (w : Walk) : Prop :=
  ∀ v ∈ w.visited, v ∈ st.deps.written ∨ v ∈ w.scripts ∨ v ∈ anc

/-- Companion invariant: every visited unwritten module that is not on the
stack has finished processing its requires, so each of its effective edges
leads to a written or visited module. -/
def EdgesDone (st : LoaderState) (anc : List String) (w : Walk) : Prop :=
  ∀ m ∈ w.visited, m ∉ anc → m ∉ st.deps.written →
    ∀ b, edgeRel st m b → b ∈ st.deps.written ∨ b ∈ w.visited

/-- Result of requesting `nsA` against the two-module cycle. -/
def runCyc : RunResult :=
  (requireNs "nsA" alwaysInject stateCyc).getD ⟨initState, [], none⟩

/-- Result of requesting `y` against the two-module chain. -/
def runChain : RunResult :=
  (requireNs "y" alwaysInject stateChain).getD ⟨initState, [], none⟩

/-- Result of requesting `nsA` against the ordering-counterexample graph. -/
def runCycleSkew : RunResult :=
  (requireNs "nsA" alwaysInject stateCycleSkew).getD ⟨initState, [], none⟩

/-- Result of requesting `y` a second time, immediately after `runChain`. -/
def runChain2 : RunResult :=
  (requireNs "y" alwaysInject runChain.state).getD ⟨initState, [], none⟩

section Lemmas

theorem alookup_aset_self {β : Type} (l : List (String × β)) (k : String) (v : β) :
    alookup (aset l k v) k = some v := by
  induction l with
  | nil => simp [aset, alookup]
  | cons hd tl ih =>
    obtain ⟨k', v'⟩ := hd
    by_cases h : k' = k
    · simp [aset, alookup, h]
    · simp [aset, alookup, h, ih]

theorem requiresFold_nameToPath (path : String) :
    ∀ (l : List String) (d : Deps),
      ((l.foldl (fun (d : Deps) req =>
        { d with requiresIdx := aset d.requiresIdx path
                   (addKey ((alookup d.requiresIdx path).getD []) req) }) d)).nameToPath
      = d.nameToPath := by
  intro l
  induction l with
  | nil => intro d; rfl
  | cons hd tl ih => intro d; rw [List.foldl_cons, ih]

theorem getParts_of_chain_break :
    ∀ (ps rest : List String) (g : JSVal), "" ∉ ps → ps ≠ [] →
      isDefAndNotNull (ps.foldl getField g) = false →
      getParts (ps ++ rest) g = JSVal.jnull := by
  intro ps
  induction ps with
  | nil => intro rest g _ hne _; exact absurd rfl hne
  | cons p ps' ih =>
    intro rest g hmem _ hbad
    have hp : ¬(p = "") := fun h => hmem (h ▸ List.mem_cons_self p ps')
    have hmem' : "" ∉ ps' := fun h => hmem (List.mem_cons_of_mem p h)
    rw [List.foldl_cons] at hbad
    show getParts (p :: (ps' ++ rest)) g = JSVal.jnull
    rw [getParts]
    simp only [hp, if_false]
    cases hdnn : isDefAndNotNull (getField g p) with
    | false => simp [hdnn]
    | true =>
      simp only [hdnn, if_true]
      apply ih rest (getField g p) hmem' ?_ hbad
      intro h
      rw [h, List.foldl_nil] at hbad
      rw [hbad] at hdnn
      cases hdnn

end Lemmas

/-- C3 (counterexample): registering a second module (`m2.js`) that provides
the already-owned namespace `n` does not preserve the first registration's
ownership: the provider index afterwards maps `n` to `m2.js`, not to
`m1.js` (and `goog.addDependency` raises no error at all). -/
theorem C3_counterexample :
    alookup depsConflict.nameToPath "n" = some "m2.js" ∧ "m2.js" ≠ "m1.js" := by
  constructor
  · rfl
  · decide

/-- C3 (amended): registering a module whose provides list contains a
namespace `n` (non-empty, so the registration loop reaches it) silently
overwrites the provider index: afterwards `n` is owned by the new module's
normalized path — the last registration wins and no error is raised
(`goog.addDependency` has no failure path at all). -/
theorem C3_last_registration_wins (d : Deps) (relPath n : String)
    (rs : List String) (hn : n ≠ "") :
    alookup (addDependency relPath [n] rs d).nameToPath n =
      some (normPath relPath) := by
  simp only [addDependency]
  rw [requiresFold_nameToPath]
  simp only [List.takeWhile_cons, List.takeWhile_nil]
  rw [if_pos (decide_eq_true hn)]
  simp only [List.foldl_cons, List.foldl_nil]
  exact alookup_aset_self _ _ _

/-- C3 (witness for the amended claim): after `m1.js` owns `n`, registering
`m2.js` with provides `[n]` makes the provider index map `n` to `m2.js`. -/
theorem C3_witness :
    alookup (addDependency "m2.js" ["n"] []
      (addDependency "m1.js" ["n"] [] initState.deps)).nameToPath "n" =
      some (normPath "m2.js") :=
  C3_last_registration_wins _ "m2.js" "n" [] (by decide)

/-- C4: on a fresh registry, `goog.provide('a.b.c')` succeeds, materializes
`a` and `a.b` as queryable container objects, records both in the
implicit-namespace set, and afterwards `isProvided('a')` is false while
`isProvided('a.b.c')` is true. -/
theorem C4_implicit_ancestors :
    (provide "a.b.c" initState).2 = none ∧
    isObj (getObjectByName "a" stateABC.global) = true ∧
    isObj (getObjectByName "a.b" stateABC.global) = true ∧
    "a" ∈ stateABC.implicitNamespaces ∧
    "a.b" ∈ stateABC.implicitNamespaces ∧
    isProvidedB stateABC "a" = false ∧
    isProvidedB stateABC "a.b.c" = true := by
  refine ⟨rfl, rfl, rfl, ?_, ?_, rfl, rfl⟩ <;> decide

/-- C5: requesting a namespace that is already provided (materialized and not
implicit) is a no-op: `goog.require` returns immediately with an unchanged
state, an empty injection sequence and no error. -/
theorem C5_provided_noop (st : LoaderState) (name : String)
    (inject : String → Bool) (h : isProvidedB st name = true) :
    requireNs name inject st = some ⟨st, [], none⟩ := by
  simp [requireNs, h]

/-- C5 (witness): after providing `a.b.c`, requesting it yields the empty
injection sequence. -/
theorem C5_witness :
    isProvidedB stateABC "a.b.c" = true ∧
    requireNs "a.b.c" alwaysInject stateABC = some ⟨stateABC, [], none⟩ :=
  ⟨by decide, C5_provided_noop _ _ _ (by decide)⟩

/-- C6: declaring an already-provided namespace fails with the
`Namespace already declared` error and leaves the whole loader state (in
particular the registry and the implicit-namespace set) exactly as it was,
because `goog.provide` throws before any mutation; conversely, a declare
that returns without error was applied to a not-yet-provided name. -/
theorem C6_duplicate_declare (st : LoaderState) (name : String) :
    (isProvidedB st name = true →
      provide name st = (st, some (JsError.duplicateNamespace name))) ∧
    (∀ st', provide name st = (st', none) → isProvidedB st name = false) := by
  constructor
  · intro h
    simp [provide, h]
  · intro st' h
    by_cases hp : isProvidedB st name = true
    · simp [provide, hp] at h
    · exact (Bool.not_eq_true _).mp hp

/-- C6 (witness): a second `goog.provide('a.b.c')` fails with the duplicate
error and returns the state unchanged. -/
theorem C6_witness :
    isProvidedB stateABC "a.b.c" = true ∧
    provide "a.b.c" stateABC =
      (stateABC, some (JsError.duplicateNamespace "a.b.c")) :=
  ⟨by decide, (C6_duplicate_declare stateABC "a.b.c").1 (by decide)⟩

/-- C10: `goog.getObjectByName` reports not-found (returns `null`) whenever
the raw property chain of a non-empty leading group of segments (possibly
all of them) ends in `undefined` or `null`; in particular a path whose
stored value is explicitly `null` is treated as not found. -/
theorem C10_resolve_null_not_found (name : String) (g : JSVal)
    (ps rest : List String) (hsplit : splitDots name = ps ++ rest)
    (hne : ps ≠ []) (hempty : "" ∉ splitDots name)
    (hbad : isDefAndNotNull (ps.foldl getField g) = false) :
    getObjectByName name g = JSVal.jnull := by
  have hmem : "" ∉ ps := fun h => hempty (hsplit ▸ List.mem_append_left rest h)
  unfold getObjectByName
  rw [hsplit]
  exact getParts_of_chain_break ps rest g hmem hne hbad

/-- C10 (witness): a global tree in which `a.b` is explicitly `null`;
resolving `a.b` yields `null` (not found). -/
theorem C10_witness :
    (splitDots "a.b" = ["a", "b"] ++ []) ∧
    isDefAndNotNull (["a", "b"].foldl getField
      (JSVal.obj [("a", JSVal.obj [("b", JSVal.jnull)])])) = false ∧
    getObjectByName "a.b" (JSVal.obj [("a", JSVal.obj [("b", JSVal.jnull)])]) =
      JSVal.jnull :=
  ⟨rfl, rfl,
    C10_resolve_null_not_found "a.b" _ ["a", "b"] [] rfl (by decide) (by decide) rfl⟩

/-- C9 (counterexample): visitation state is not discarded when a pass ends.
Requesting `x` when `m.js` requires an unowned namespace throws
`Undefined nameToPath for nothing` and injects nothing, yet `m.js` stays in
the process-wide `deps.visited` record; the immediately following request
for `x` finds `m.js` visited, emits it without re-walking its requires, and
injects it without raising the error again — under the claimed per-pass
semantics the second pass would have started with `m.js` unvisited and
re-raised the error. -/
theorem C9_counterexample :
    requireNs "x" alwaysInject stateUnresolved = some runC9a ∧
    runC9a.error = some (JsError.undefinedNameToPath "nothing") ∧
    runC9a.injected = [] ∧
    "m.js" ∈ runC9a.state.deps.visited ∧
    "m.js" ∉ runC9a.state.deps.written ∧
    requireNs "x" alwaysInject runC9a.state = some runC9b ∧
    runC9b.error = none ∧
    runC9b.injected = ["m.js"] :=
  ⟨rfl, rfl, rfl, by decide, by decide, rfl, rfl, rfl⟩

section WalkLemmas

variable (st : LoaderState)

theorem pushScript_visited (p : String) (w : Walk) :
    (pushScript p w).visited = w.visited := by
  unfold pushScript
  split <;> rfl

theorem pushScript_scripts_append (p : String) (w : Walk) :
    ∃ t, (pushScript p w).scripts = w.scripts ++ t := by
  unfold pushScript
  split
  · exact ⟨[], by simp⟩
  · exact ⟨[p], rfl⟩

theorem mem_pushScript_self (p : String) (w : Walk) :
    p ∈ (pushScript p w).scripts := by
  unfold pushScript
  split
  · assumption
  · simp

theorem mem_pushScript_of_mem {q : String} (p : String) (w : Walk)
    (h : q ∈ w.scripts) : q ∈ (pushScript p w).scripts := by
  unfold pushScript
  split
  · exact h
  · simp [h]

theorem mem_pushScript_inv {q p : String} {w : Walk}
    (h : q ∈ (pushScript p w).scripts) : q ∈ w.scripts ∨ q = p := by
  unfold pushScript at h
  split at h
  · exact Or.inl h
  · rcases List.mem_append.mp h with h1 | h1
    · exact Or.inl h1
    · exact Or.inr (List.mem_singleton.mp h1)

theorem pushScript_nodup {p : String} {w : Walk} (h : w.scripts.Nodup) :
    (pushScript p w).scripts.Nodup := by
  unfold pushScript
  split
  · exact h
  · next hmem => simpa [List.nodup_append] using ⟨h, hmem⟩

theorem wle_refl (w : Walk) : wle w w :=
  ⟨fun _ hx => hx, [], by simp⟩

theorem wle_trans {w1 w2 w3 : Walk} (h1 : wle w1 w2) (h2 : wle w2 w3) :
    wle w1 w3 := by
  obtain ⟨hv1, t1, ht1⟩ := h1
  obtain ⟨hv2, t2, ht2⟩ := h2
  exact ⟨fun x hx => hv2 x (hv1 x hx), t1 ++ t2, by rw [ht2, ht1, List.append_assoc]⟩

theorem wle_push (p : String) (w : Walk) : wle w (pushScript p w) :=
  ⟨fun x hx => by rw [pushScript_visited]; exact hx, pushScript_scripts_append p w⟩

theorem wle_mark (p : String) (w : Walk) :
    wle w { w with visited := p :: w.visited } :=
  ⟨fun x hx => List.mem_cons_of_mem p hx, [], by simp⟩

theorem before_append (b a : String) (l t : List String)
    (h : Before b a l) : Before b a (l ++ t) := by
  obtain ⟨l₁, l₂, hl, hb⟩ := h
  exact ⟨l₁, l₂ ++ t, by rw [hl]; simp, hb⟩

theorem before_of_wle {b a : String} {w w' : Walk} (hle : wle w w')
    (h : Before b a w.scripts) : Before b a w'.scripts := by
  obtain ⟨_, t, ht⟩ := hle
  rw [ht]
  exact before_append b a w.scripts t h

theorem visitN_zero (p : String) (w : Walk) : visitN st 0 p w = none := rfl

theorem visitN_succ (fuel : Nat) (path : String) (w : Walk) :
    visitN st (fuel + 1) path w =
      (if path ∈ st.deps.written then some (w, none)
       else if path ∈ w.visited then some (pushScript path w, none)
       else
         match runReqs st (visitN st fuel) (reqList st path)
             { w with visited := path :: w.visited } with
         | none => none
         | some (w2, some e) => some (w2, some e)
         | some (w2, none) => some (pushScript path w2, none)) := rfl

theorem visitN_succ_inv {fuel : Nat} {p : String} {w w' : Walk}
    {e : Option JsError} (h : visitN st (fuel + 1) p w = some (w', e)) :
    (p ∈ st.deps.written ∧ w' = w ∧ e = none) ∨
    (p ∉ st.deps.written ∧ p ∈ w.visited ∧ w' = pushScript p w ∧ e = none) ∨
    (∃ w2, p ∉ st.deps.written ∧ p ∉ w.visited ∧
      runReqs st (visitN st fuel) (reqList st p)
        { w with visited := p :: w.visited } = some (w2, none) ∧
      w' = pushScript p w2 ∧ e = none) ∨
    (∃ e1, p ∉ st.deps.written ∧ p ∉ w.visited ∧
      runReqs st (visitN st fuel) (reqList st p)
        { w with visited := p :: w.visited } = some (w', some e1) ∧
      e = some e1) := by
  rw [visitN_succ] at h
  by_cases hw : p ∈ st.deps.written
  · rw [if_pos hw] at h
    injection h with h1
    injection h1 with ha hb
    exact Or.inl ⟨hw, ha.symm, hb.symm⟩
  · rw [if_neg hw] at h
    by_cases hv : p ∈ w.visited
    · rw [if_pos hv] at h
      injection h with h1
      injection h1 with ha hb
      exact Or.inr (Or.inl ⟨hw, hv, ha.symm, hb.symm⟩)
    · rw [if_neg hv] at h
      split at h
      next => cases h
      next w2 e1 hrr =>
        injection h with h1
        injection h1 with ha hb
        exact Or.inr (Or.inr (Or.inr ⟨e1, hw, hv, ha ▸ hrr, hb.symm⟩))
      next w2 hrr =>
        injection h with h1
        injection h1 with ha hb
        exact Or.inr (Or.inr (Or.inl ⟨w2, hw, hv, hrr, ha.symm, hb.symm⟩))

theorem runReqs_nil (visit : String → Walk → Option (Walk × Option JsError))
    (w : Walk) : runReqs st visit [] w = some (w, none) := rfl

theorem runReqs_cons_inv {visit : String → Walk → Option (Walk × Option JsError)}
    {r : String} {rs : List String} {w w' : Walk} {e : Option JsError}
    (h : runReqs st visit (r :: rs) w = some (w', e)) :
    (isProvidedB st r = true ∧ runReqs st visit rs w = some (w', e)) ∨
    (isProvidedB st r = false ∧ alookup st.deps.nameToPath r = none ∧
      w' = w ∧ e = some (JsError.undefinedNameToPath r)) ∨
    (∃ owner w1, isProvidedB st r = false ∧
      alookup st.deps.nameToPath r = some owner ∧
      visit owner w = some (w1, none) ∧ runReqs st visit rs w1 = some (w', e)) ∨
    (∃ owner e1, isProvidedB st r = false ∧
      alookup st.deps.nameToPath r = some owner ∧
      visit owner w = some (w', some e1) ∧ e = some e1) := by
  rw [runReqs] at h
  by_cases hp : isProvidedB st r = true
  · rw [if_pos hp] at h
    exact Or.inl ⟨hp, h⟩
  · rw [if_neg hp] at h
    have hp' : isProvidedB st r = false := (Bool.not_eq_true _).mp hp
    split at h
    next hl =>
      injection h with h1
      injection h1 with ha hb
      exact Or.inr (Or.inl ⟨hp', hl, ha.symm, hb.symm⟩)
    next owner hl =>
      split at h
      next => cases h
      next w1 e1 hvis =>
        injection h with h1
        injection h1 with ha hb
        exact Or.inr (Or.inr (Or.inr ⟨owner, e1, hp', hl, ha ▸ hvis, hb.symm⟩))
      next w1 hvis =>
        exact Or.inr (Or.inr (Or.inl ⟨owner, w1, hp', hl, hvis, h⟩))

theorem runReqs_wle {visit : String → Walk → Option (Walk × Option JsError)}
    (hv : ∀ p w w' e, visit p w = some (w', e) → wle w w') :
    ∀ (rs : List String) (w w' : Walk) (e : Option JsError),
      runReqs st visit rs w = some (w', e) → wle w w' := by
  intro rs
  induction rs with
  | nil =>
    intro w w' e h
    rw [runReqs_nil] at h
    injection h with h1
    injection h1 with ha _
    exact ha ▸ wle_refl w
  | cons r rs ih =>
    intro w w' e h
    rcases runReqs_cons_inv st h with ⟨_, h2⟩ | ⟨_, _, hww, _⟩ |
      ⟨o, w1, _, _, hvis, hrest⟩ | ⟨o, e1, _, _, hvis, _⟩
    · exact ih w w' e h2
    · rw [hww]; exact wle_refl w
    · exact wle_trans (hv _ _ _ _ hvis) (ih _ _ _ hrest)
    · exact hv _ _ _ _ hvis

theorem visitN_wle :
    ∀ (fuel : Nat) (p : String) (w w' : Walk) (e : Option JsError),
      visitN st fuel p w = some (w', e) → wle w w' := by
  intro fuel
  induction fuel with
  | zero => intro p w w' e h; rw [visitN_zero] at h; cases h
  | succ fuel ih =>
    intro p w w' e h
    rcases visitN_succ_inv st h with ⟨_, hww, _⟩ | ⟨_, _, hww, _⟩ |
      ⟨w2, _, _, hrr, hww, _⟩ | ⟨e1, _, _, hrr, _⟩
    · rw [hww]; exact wle_refl w
    · rw [hww]; exact wle_push p w
    · rw [hww]
      exact wle_trans (wle_trans (wle_mark p w)
        (runReqs_wle st ih _ _ _ _ hrr)) (wle_push p w2)
    · exact wle_trans (wle_mark p w) (runReqs_wle st ih _ _ _ _ hrr)

theorem visitN_seedDone (fuel : Nat) (p : String) (w w' : Walk)
    (e : Option JsError) (h : visitN st fuel p w = some (w', e)) :
    p ∈ st.deps.written ∨ p ∈ w'.visited := by
  cases fuel with
  | zero => rw [visitN_zero] at h; cases h
  | succ fuel =>
    rcases visitN_succ_inv st h with ⟨hw, _, _⟩ | ⟨_, hvz, hww, _⟩ |
      ⟨w2, _, _, hrr, hww, _⟩ | ⟨e1, _, _, hrr, _⟩
    · exact Or.inl hw
    · right; rw [hww, pushScript_visited]; exact hvz
    · right
      rw [hww, pushScript_visited]
      exact (runReqs_wle st (visitN_wle st fuel) _ _ _ _ hrr).1 p
        (List.mem_cons_self p w.visited)
    · right
      exact (runReqs_wle st (visitN_wle st fuel) _ _ _ _ hrr).1 p
        (List.mem_cons_self p w.visited)

theorem visitN_emit (fuel : Nat) (p : String) (w w' : Walk)
    (h : visitN st fuel p w = some (w', none)) (hp : p ∉ st.deps.written) :
    p ∈ w'.scripts := by
  cases fuel with
  | zero => rw [visitN_zero] at h; cases h
  | succ fuel =>
    rcases visitN_succ_inv st h with ⟨hw, _, _⟩ | ⟨_, _, hww, _⟩ |
      ⟨w2, _, _, _, hww, _⟩ | ⟨e1, _, _, _, he⟩
    · exact absurd hw hp
    · rw [hww]; exact mem_pushScript_self p w
    · rw [hww]; exact mem_pushScript_self p w2
    · cases he

theorem runReqs_newScripts {visit : String → Walk → Option (Walk × Option JsError)}
    (hv_wle : ∀ p w w' e, visit p w = some (w', e) → wle w w')
    (hv : ∀ p w w' e, visit p w = some (w', e) → ∀ q ∈ w'.scripts,
      q ∈ w.scripts ∨ (q ∉ st.deps.written ∧ q ∈ w'.visited)) :
    ∀ (rs : List String) (w w' : Walk) (e : Option JsError),
      runReqs st visit rs w = some (w', e) → ∀ q ∈ w'.scripts,
        q ∈ w.scripts ∨ (q ∉ st.deps.written ∧ q ∈ w'.visited) := by
  intro rs
  induction rs with
  | nil =>
    intro w w' e h q hq
    rw [runReqs_nil] at h
    injection h with h1
    injection h1 with ha _
    exact Or.inl (ha ▸ hq)
  | cons r rs ih =>
    intro w w' e h q hq
    rcases runReqs_cons_inv st h with ⟨_, h2⟩ | ⟨_, _, hww, _⟩ |
      ⟨o, w1, _, _, hvis, hrest⟩ | ⟨o, e1, _, _, hvis, _⟩
    · exact ih w w' e h2 q hq
    · exact Or.inl (hww ▸ hq)
    · rcases ih w1 w' e hrest q hq with h1 | ⟨h1, h2⟩
      · rcases hv _ _ _ _ hvis q h1 with h3 | ⟨h3, h4⟩
        · exact Or.inl h3
        · exact Or.inr ⟨h3, (runReqs_wle st hv_wle _ _ _ _ hrest).1 q h4⟩
      · exact Or.inr ⟨h1, h2⟩
    · exact hv _ _ _ _ hvis q hq

theorem visitN_newScripts :
    ∀ (fuel : Nat) (p : String) (w w' : Walk) (e : Option JsError),
      visitN st fuel p w = some (w', e) → ∀ q ∈ w'.scripts,
        q ∈ w.scripts ∨ (q ∉ st.deps.written ∧ q ∈ w'.visited) := by
  intro fuel
  induction fuel with
  | zero => intro p w w' e h; rw [visitN_zero] at h; cases h
  | succ fuel ih =>
    intro p w w' e h q hq
    rcases visitN_succ_inv st h with ⟨_, hww, _⟩ | ⟨hw, hvz, hww, _⟩ |
      ⟨w2, hw, _, hrr, hww, _⟩ | ⟨e1, hw, _, hrr, _⟩
    · exact Or.inl (hww ▸ hq)
    · rw [hww] at hq
      rcases mem_pushScript_inv hq with h1 | h1
      · exact Or.inl h1
      · subst h1
        exact Or.inr ⟨hw, by rw [hww, pushScript_visited]; exact hvz⟩
    · rw [hww] at hq
      rcases mem_pushScript_inv hq with h1 | h1
      · rcases runReqs_newScripts st (visitN_wle st fuel) ih _ _ _ _ hrr q h1 with h2 | ⟨h2, h3⟩
        · exact Or.inl h2
        · exact Or.inr ⟨h2, by rw [hww, pushScript_visited]; exact h3⟩
      · subst h1
        refine Or.inr ⟨hw, ?_⟩
        rw [hww, pushScript_visited]
        exact (runReqs_wle st (visitN_wle st fuel) _ _ _ _ hrr).1 q
          (List.mem_cons_self q w.visited)
    · rcases runReqs_newScripts st (visitN_wle st fuel) ih _ _ _ _ hrr q hq with h2 | ⟨h2, h3⟩
      · exact Or.inl h2
      · exact Or.inr ⟨h2, h3⟩

theorem runReqs_nodup {visit : String → Walk → Option (Walk × Option JsError)}
    (hv : ∀ p w w' e, visit p w = some (w', e) →
      w.scripts.Nodup → w'.scripts.Nodup) :
    ∀ (rs : List String) (w w' : Walk) (e : Option JsError),
      runReqs st visit rs w = some (w', e) →
      w.scripts.Nodup → w'.scripts.Nodup := by
  intro rs
  induction rs with
  | nil =>
    intro w w' e h hn
    rw [runReqs_nil] at h
    injection h with h1
    injection h1 with ha _
    exact ha ▸ hn
  | cons r rs ih =>
    intro w w' e h hn
    rcases runReqs_cons_inv st h with ⟨_, h2⟩ | ⟨_, _, hww, _⟩ |
      ⟨o, w1, _, _, hvis, hrest⟩ | ⟨o, e1, _, _, hvis, _⟩
    · exact ih w w' e h2 hn
    · exact hww ▸ hn
    · exact ih w1 w' e hrest (hv _ _ _ _ hvis hn)
    · exact hv _ _ _ _ hvis hn

theorem visitN_nodup :
    ∀ (fuel : Nat) (p : String) (w w' : Walk) (e : Option JsError),
      visitN st fuel p w = some (w', e) →
      w.scripts.Nodup → w'.scripts.Nodup := by
  intro fuel
  induction fuel with
  | zero => intro p w w' e h; rw [visitN_zero] at h; cases h
  | succ fuel ih =>
    intro p w w' e h hn
    rcases visitN_succ_inv st h with ⟨_, hww, _⟩ | ⟨_, _, hww, _⟩ |
      ⟨w2, _, _, hrr, hww, _⟩ | ⟨e1, _, _, hrr, _⟩
    · exact hww ▸ hn
    · exact hww ▸ pushScript_nodup hn
    · exact hww ▸ pushScript_nodup (runReqs_nodup st ih _ _ _ _ hrr hn)
    · exact runReqs_nodup st ih _ _ _ _ hrr hn

theorem runReqs_err {visit : String → Walk → Option (Walk × Option JsError)}
    (hv : ∀ p w w' r', visit p w = some (w', some (JsError.undefinedNameToPath r')) →
      alookup st.deps.nameToPath r' = none ∧ isProvidedB st r' = false) :
    ∀ (rs : List String) (w w' : Walk) (r' : String),
      runReqs st visit rs w = some (w', some (JsError.undefinedNameToPath r')) →
      alookup st.deps.nameToPath r' = none ∧ isProvidedB st r' = false := by
  intro rs
  induction rs with
  | nil =>
    intro w w' r' h
    rw [runReqs_nil] at h
    injection h with h1
    injection h1 with _ hb
    cases hb
  | cons r rs ih =>
    intro w w' r' h
    rcases runReqs_cons_inv st h with ⟨_, h2⟩ | ⟨hp', hl, _, he⟩ |
      ⟨o, w1, _, _, _, hrest⟩ | ⟨o, e1, _, _, hvis, he⟩
    · exact ih w w' r' h2
    · injection he with he1
      injection he1 with he2
      exact he2 ▸ ⟨hl, hp'⟩
    · exact ih w1 w' r' hrest
    · injection he with he1
      exact hv _ _ _ _ (he1 ▸ hvis)

theorem visitN_err :
    ∀ (fuel : Nat) (p : String) (w w' : Walk) (r' : String),
      visitN st fuel p w = some (w', some (JsError.undefinedNameToPath r')) →
      alookup st.deps.nameToPath r' = none ∧ isProvidedB st r' = false := by
  intro fuel
  induction fuel with
  | zero => intro p w w' r' h; rw [visitN_zero] at h; cases h
  | succ fuel ih =>
    intro p w w' r' h
    rcases visitN_succ_inv st h with ⟨_, _, he⟩ | ⟨_, _, _, he⟩ |
      ⟨w2, _, _, _, _, he⟩ | ⟨e1, _, _, hrr, he⟩
    · cases he
    · cases he
    · cases he
    · injection he with he1
      exact runReqs_err st ih _ _ _ _ (he1 ▸ hrr)

theorem filter_sub_le : ∀ (l : List String) (P Q : String → Bool),
    (∀ x, P x = true → Q x = true) →
    (l.filter P).length ≤ (l.filter Q).length := by
  intro l P Q hPQ
  induction l with
  | nil => simp
  | cons x l ih =>
    simp only [List.filter_cons]
    cases hP : P x with
    | true =>
      rw [hPQ x hP]
      simpa using Nat.succ_le_succ ih
    | false =>
      cases hQ : Q x with
      | true => simpa using Nat.le_succ_of_le ih
      | false => simpa using ih

theorem filter_sub_lt : ∀ (l : List String) (P Q : String → Bool),
    (∀ x, P x = true → Q x = true) → ∀ o ∈ l, P o = false → Q o = true →
    (l.filter P).length < (l.filter Q).length := by
  intro l P Q hPQ
  induction l with
  | nil => intro o ho; cases ho
  | cons x l ih =>
    intro o ho hPo hQo
    simp only [List.filter_cons]
    rcases List.mem_cons.mp ho with rfl | ho'
    · rw [hPo, hQo]
      simpa using Nat.lt_succ_of_le (filter_sub_le l P Q hPQ)
    · cases hP : P x with
      | true =>
        rw [hPQ x hP]
        simpa using Nat.succ_lt_succ (ih o ho' hPo hQo)
      | false =>
        cases hQ : Q x with
        | true => simpa using Nat.lt_succ_of_lt (ih o ho' hPo hQo)
        | false => simpa using ih o ho' hPo hQo

theorem walkMeasure_mono {w w' : Walk} (h : ∀ x ∈ w.visited, x ∈ w'.visited) :
    walkMeasure st w' ≤ walkMeasure st w := by
  apply filter_sub_le
  intro x hx
  rw [decide_eq_true_eq] at hx ⊢
  exact fun hc => hx (h x hc)

theorem walkMeasure_mark_lt {o : String} {w : Walk} (ht : o ∈ targetsOf st)
    (hv : o ∉ w.visited) :
    walkMeasure st { w with visited := o :: w.visited } < walkMeasure st w := by
  refine filter_sub_lt _ _ _ ?_ o ht ?_ ?_
  · intro x hx
    rw [decide_eq_true_eq] at hx ⊢
    exact fun hc => hx (List.mem_cons_of_mem o hc)
  · simp
  · exact decide_eq_true hv

theorem walkMeasure_pos {o : String} {w : Walk} (ht : o ∈ targetsOf st)
    (hv : o ∉ w.visited) : 1 ≤ walkMeasure st w := by
  have : o ∈ (targetsOf st).filter (fun p => decide (p ∉ w.visited)) :=
    List.mem_filter.mpr ⟨ht, by simpa using hv⟩
  exact List.length_pos.mpr (fun hnil => by rw [hnil] at this; cases this)

theorem walkMeasure_le (w : Walk) :
    walkMeasure st w ≤ st.deps.nameToPath.length := by
  calc walkMeasure st w ≤ (targetsOf st).length := List.length_filter_le _ _
  _ ≤ (st.deps.nameToPath.map Prod.snd).length :=
      (List.dedup_sublist _).length_le
  _ = st.deps.nameToPath.length := List.length_map _ _

theorem alookup_mem_snd {β : Type} :
    ∀ (l : List (String × β)) (k : String) (v : β),
      alookup l k = some v → v ∈ l.map Prod.snd := by
  intro l
  induction l with
  | nil => intro k v h; cases h
  | cons hd tl ih =>
    intro k v h
    obtain ⟨k', v'⟩ := hd
    rw [alookup] at h
    by_cases hk : k' = k
    · rw [if_pos hk] at h
      injection h with h1
      simp [h1]
    · rw [if_neg hk] at h
      simpa using Or.inr (List.mem_map.mp (ih k v h))

theorem owner_mem_targets {r o : String}
    (h : alookup st.deps.nameToPath r = some o) : o ∈ targetsOf st :=
  List.mem_dedup.mpr (alookup_mem_snd _ _ _ h)

theorem runReqs_total {visit : String → Walk → Option (Walk × Option JsError)}
    (k : Nat) (hv_wle : ∀ p w w' e, visit p w = some (w', e) → wle w w')
    (hv_total : ∀ o w1, o ∈ targetsOf st → walkMeasure st w1 ≤ k →
      visit o w1 ≠ none) :
    ∀ (rs : List String) (w : Walk), walkMeasure st w ≤ k →
      runReqs st visit rs w ≠ none := by
  intro rs
  induction rs with
  | nil => intro w _ h; cases h
  | cons r rs ih =>
    intro w hm
    rw [runReqs]
    split
    · exact ih w hm
    · split
      next => exact fun h => by cases h
      next owner hl =>
        cases hvis : visit owner w with
        | none => exact absurd hvis (hv_total owner w (owner_mem_targets st hl) hm)
        | some pr =>
          obtain ⟨w1, e1⟩ := pr
          cases e1 with
          | some e2 => exact fun h => by cases h
          | none =>
            exact ih w1 (Nat.le_trans
              (walkMeasure_mono st (hv_wle _ _ _ _ hvis).1) hm)

theorem visitN_total :
    ∀ (fuel : Nat) (o : String) (w : Walk), o ∈ targetsOf st →
      walkMeasure st w ≤ fuel → visitN st (fuel + 1) o w ≠ none := by
  intro fuel
  induction fuel with
  | zero =>
    intro o w ht hm
    rw [visitN_succ]
    split
    · exact fun h => by cases h
    · split
      · exact fun h => by cases h
      · next hnv =>
        exact absurd hm (Nat.not_le.mpr (walkMeasure_pos st ht hnv))
  | succ fuel ih =>
    intro o w ht hm
    rw [visitN_succ]
    split
    · exact fun h => by cases h
    · split
      · exact fun h => by cases h
      · next hnv =>
        have hmark : walkMeasure st { w with visited := o :: w.visited } ≤ fuel :=
          Nat.lt_succ_iff.mp
            (Nat.lt_of_lt_of_le (walkMeasure_mark_lt st ht hnv) hm)
        cases hrr : runReqs st (visitN st (fuel + 1)) (reqList st o)
            { w with visited := o :: w.visited } with
        | none =>
          exact absurd hrr
            (runReqs_total st fuel (visitN_wle st (fuel + 1)) ih _ _ hmark)
        | some pr =>
          obtain ⟨w2, e2⟩ := pr
          cases e2 with
          | some e3 => exact fun h => by cases h
          | none => exact fun h => by cases h

theorem visitN_top (fuel : Nat) (p : String) (w : Walk)
    (hm : walkMeasure st w < fuel) : visitN st (fuel + 1) p w ≠ none := by
  cases fuel with
  | zero => cases hm
  | succ m =>
    rw [visitN_succ]
    split
    · exact fun h => by cases h
    · split
      · exact fun h => by cases h
      · next hnv =>
        have hmark : walkMeasure st { w with visited := p :: w.visited } ≤ m :=
          Nat.le_trans (walkMeasure_mono st (wle_mark p w).1)
            (Nat.lt_succ_iff.mp hm)
        cases hrr : runReqs st (visitN st (m + 1)) (reqList st p)
            { w with visited := p :: w.visited } with
        | none =>
          exact absurd hrr (runReqs_total st m (visitN_wle st (m + 1))
            (visitN_total st m) _ _ hmark)
        | some pr =>
          obtain ⟨w2, e2⟩ := pr
          cases e2 with
          | some e3 => exact fun h => by cases h
          | none => exact fun h => by cases h

theorem includedLoop_total :
    ∀ (seeds : List String) (w : Walk),
      includedLoop st (walkFuel st) seeds w ≠ none := by
  intro seeds
  induction seeds with
  | nil => intro w h; cases h
  | cons p ps ih =>
    intro w
    rw [includedLoop]
    split
    · exact ih w
    · cases hv : visitN st (walkFuel st) p w with
      | none =>
        refine absurd hv (visitN_top st (st.deps.nameToPath.length + 1) p w ?_)
        exact Nat.lt_succ_of_le (walkMeasure_le st w)
      | some pr =>
        obtain ⟨w', e⟩ := pr
        cases e with
        | some e1 => exact fun h => by cases h
        | none => exact ih w'

theorem writeScripts_total (inject : String → Bool) :
    writeScripts inject st ≠ none := by
  rw [writeScripts]
  cases hil : includedLoop st (walkFuel st) st.included
      ⟨st.deps.visited, []⟩ with
  | none => exact absurd hil (includedLoop_total st _ _)
  | some pr =>
    obtain ⟨w, e⟩ := pr
    cases e with
    | some e1 => exact fun h => by cases h
    | none => exact fun h => by cases h

theorem requireNs_total (name : String) (inject : String → Bool)
    (st0 : LoaderState) : requireNs name inject st0 ≠ none := by
  rw [requireNs]
  split
  · exact fun h => by cases h
  · split
    next path hl => exact writeScripts_total _ inject
    next => exact fun h => by cases h

theorem runReqs_each {visit : String → Walk → Option (Walk × Option JsError)}
    (hv_wle : ∀ p w w' e, visit p w = some (w', e) → wle w w') :
    ∀ (rs : List String) (w w' : Walk),
      runReqs st visit rs w = some (w', none) →
      ∀ r ∈ rs, isProvidedB st r = false →
        ∀ o, alookup st.deps.nameToPath r = some o →
          ∃ wa wb, visit o wa = some (wb, none) ∧ wle wb w' := by
  intro rs
  induction rs with
  | nil => intro w w' _ r hr; cases hr
  | cons r0 rs ih =>
    intro w w' h r hr hprov o hlook
    rcases runReqs_cons_inv st h with ⟨hp, h2⟩ | ⟨_, _, _, he⟩ |
      ⟨o1, w1, _, hl1, hvis, hrest⟩ | ⟨o1, e1, _, _, _, he⟩
    · rcases List.mem_cons.mp hr with rfl | hr'
      · rw [hp] at hprov; cases hprov
      · exact ih w w' h2 r hr' hprov o hlook
    · cases he
    · rcases List.mem_cons.mp hr with rfl | hr'
      · rw [hl1] at hlook
        injection hlook with ho
        exact ⟨w, w1, ho ▸ hvis, runReqs_wle st hv_wle _ _ _ _ hrest⟩
      · exact ih w1 w' hrest r hr' hprov o hlook
    · cases he

theorem visInv_mark {anc : List String} {w : Walk} (p : String)
    (hvis : VisInv st anc w) :
    VisInv st (p :: anc) { w with visited := p :: w.visited } := by
  intro v hv
  rcases List.mem_cons.mp hv with rfl | hv'
  · exact Or.inr (Or.inr (List.mem_cons_self v anc))
  · rcases hvis v hv' with h | h | h
    · exact Or.inl h
    · exact Or.inr (Or.inl h)
    · exact Or.inr (Or.inr (List.mem_cons_of_mem p h))

theorem edgesDone_mark {anc : List String} {w : Walk} (p : String)
    (hed : EdgesDone st anc w) :
    EdgesDone st (p :: anc) { w with visited := p :: w.visited } := by
  intro m hm hnanc hnw b hb
  rcases List.mem_cons.mp hm with rfl | hm'
  · exact absurd (List.mem_cons_self m anc) hnanc
  · have hnanc' : m ∉ anc := fun hc => hnanc (List.mem_cons_of_mem p hc)
    rcases hed m hm' hnanc' hnw b hb with h | h
    · exact Or.inl h
    · exact Or.inr (List.mem_cons_of_mem p h)

theorem hreach_step {anc : List String} {p : String}
    (hanc : ∀ a ∈ anc, Relation.TransGen (edgeRel st) a p) :
    ∀ r ∈ reqList st p, isProvidedB st r = false →
      ∀ o, alookup st.deps.nameToPath r = some o →
        ∀ a ∈ p :: anc, Relation.TransGen (edgeRel st) a o := by
  intro r hr hprov o hlook a ha
  have hedge : edgeRel st p o := ⟨r, hr, hprov, hlook⟩
  rcases List.mem_cons.mp ha with rfl | ha'
  · exact Relation.TransGen.single hedge
  · exact Relation.TransGen.tail (hanc a ha') hedge

theorem runReqs_master1 (fuel : Nat)
    (ihm : ∀ (p : String) (w w' : Walk) (anc : List String),
      visitN st fuel p w = some (w', none) →
      (∀ a ∈ anc, Relation.TransGen (edgeRel st) a p) →
      VisInv st anc w → EdgesDone st anc w →
      VisInv st anc w' ∧ EdgesDone st anc w') :
    ∀ (rs anc' : List String) (w w' : Walk),
      runReqs st (visitN st fuel) rs w = some (w', none) →
      (∀ r ∈ rs, isProvidedB st r = false → ∀ o,
        alookup st.deps.nameToPath r = some o →
        ∀ a ∈ anc', Relation.TransGen (edgeRel st) a o) →
      VisInv st anc' w → EdgesDone st anc' w →
      VisInv st anc' w' ∧ EdgesDone st anc' w' := by
  intro rs
  induction rs with
  | nil =>
    intro anc' w w' h _ hvis hed
    rw [runReqs_nil] at h
    injection h with h1
    injection h1 with ha _
    exact ha ▸ ⟨hvis, hed⟩
  | cons r rs ih =>
    intro anc' w w' h hreach hvis hed
    rcases runReqs_cons_inv st h with ⟨_, h2⟩ | ⟨_, _, _, he⟩ |
      ⟨o, w1, hp', hl, hvisit, hrest⟩ | ⟨o, e1, _, _, _, he⟩
    · exact ih anc' w w' h2
        (fun r' hr' => hreach r' (List.mem_cons_of_mem r hr')) hvis hed
    · cases he
    · have hro : ∀ a ∈ anc', Relation.TransGen (edgeRel st) a o :=
        hreach r (List.mem_cons_self r rs) hp' o hl
      obtain ⟨hvis1, hed1⟩ := ihm o w w1 anc' hvisit hro hvis hed
      exact ih anc' w1 w' hrest
        (fun r' hr' => hreach r' (List.mem_cons_of_mem r hr')) hvis1 hed1
    · cases he

theorem visitN_master1 :
    ∀ (fuel : Nat) (p : String) (w w' : Walk) (anc : List String),
      visitN st fuel p w = some (w', none) →
      (∀ a ∈ anc, Relation.TransGen (edgeRel st) a p) →
      VisInv st anc w → EdgesDone st anc w →
      VisInv st anc w' ∧ EdgesDone st anc w' := by
  intro fuel
  induction fuel with
  | zero => intro p w w' anc h; rw [visitN_zero] at h; cases h
  | succ fuel ih =>
    intro p w w' anc h hanc hvis hed
    rcases visitN_succ_inv st h with ⟨hw, hww, _⟩ | ⟨hw, hvz, hww, _⟩ |
      ⟨w2, hw, hnv, hrr, hww, _⟩ | ⟨e1, _, _, _, he⟩
    · exact hww ▸ ⟨hvis, hed⟩
    · subst hww
      constructor
      · intro v hv
        rw [pushScript_visited] at hv
        rcases hvis v hv with h1 | h1 | h1
        · exact Or.inl h1
        · exact Or.inr (Or.inl (mem_pushScript_of_mem p w h1))
        · exact Or.inr (Or.inr h1)
      · intro m hm hnanc hnw b hb
        rw [pushScript_visited] at hm
        rcases hed m hm hnanc hnw b hb with h1 | h1
        · exact Or.inl h1
        · exact Or.inr (by rw [pushScript_visited]; exact h1)
    · subst hww
      obtain ⟨hvis2, hed2⟩ := runReqs_master1 st fuel ih (reqList st p)
        (p :: anc) _ w2 hrr (hreach_step st hanc)
        (visInv_mark st p hvis) (edgesDone_mark st p hed)
      constructor
      · intro v hv
        rw [pushScript_visited] at hv
        rcases hvis2 v hv with h1 | h1 | h1
        · exact Or.inl h1
        · exact Or.inr (Or.inl (mem_pushScript_of_mem p w2 h1))
        · rcases List.mem_cons.mp h1 with rfl | h2
          · exact Or.inr (Or.inl (mem_pushScript_self v w2))
          · exact Or.inr (Or.inr h2)
      · intro m hm hnanc hnw b hb
        rw [pushScript_visited] at hm
        by_cases hmp : m = p
        · subst hmp
          obtain ⟨r, hr, hprov, hlook⟩ := hb
          obtain ⟨wa, wb, hvb, hwle⟩ :=
            runReqs_each st (visitN_wle st fuel) _ _ _ hrr r hr hprov b hlook
          rcases visitN_seedDone st fuel b wa wb none hvb with h1 | h1
          · exact Or.inl h1
          · exact Or.inr (by rw [pushScript_visited]; exact hwle.1 b h1)
        · have hnanc' : m ∉ p :: anc :=
            fun hc => (List.mem_cons.mp hc).elim hmp hnanc
          rcases hed2 m hm hnanc' hnw b hb with h1 | h1
          · exact Or.inl h1
          · exact Or.inr (by rw [pushScript_visited]; exact h1)
    · cases he

theorem runReqs_master2 (fuel : Nat) (A B : String)
    (ihm2 : ∀ (p : String) (w w' : Walk) (anc : List String),
      visitN st fuel p w = some (w', none) →
      (∀ a ∈ anc, Relation.TransGen (edgeRel st) a p) →
      VisInv st anc w → EdgesDone st anc w →
      A ∉ w.scripts → A ∈ w'.scripts → Before B A w'.scripts) :
    ∀ (rs anc' : List String) (w w' : Walk),
      runReqs st (visitN st fuel) rs w = some (w', none) →
      (∀ r ∈ rs, isProvidedB st r = false → ∀ o,
        alookup st.deps.nameToPath r = some o →
        ∀ a ∈ anc', Relation.TransGen (edgeRel st) a o) →
      VisInv st anc' w → EdgesDone st anc' w →
      A ∉ w.scripts → A ∈ w'.scripts → Before B A w'.scripts := by
  intro rs
  induction rs with
  | nil =>
    intro anc' w w' h _ _ _ hA hA'
    rw [runReqs_nil] at h
    injection h with h1
    injection h1 with ha _
    exact absurd (ha ▸ hA') hA
  | cons r rs ih =>
    intro anc' w w' h hreach hvis hed hA hA'
    rcases runReqs_cons_inv st h with ⟨_, h2⟩ | ⟨_, _, _, he⟩ |
      ⟨o, w1, hp', hl, hvisit, hrest⟩ | ⟨o, e1, _, _, _, he⟩
    · exact ih anc' w w' h2
        (fun r' hr' => hreach r' (List.mem_cons_of_mem r hr')) hvis hed hA hA'
    · cases he
    · have hro : ∀ a ∈ anc', Relation.TransGen (edgeRel st) a o :=
        hreach r (List.mem_cons_self r rs) hp' o hl
      by_cases hA1 : A ∈ w1.scripts
      · exact before_of_wle
          (runReqs_wle st (visitN_wle st fuel) _ _ _ _ hrest)
          (ihm2 o w w1 anc' hvisit hro hvis hed hA hA1)
      · obtain ⟨hvis1, hed1⟩ :=
          visitN_master1 st fuel o w w1 anc' hvisit hro hvis hed
        exact ih anc' w1 w' hrest
          (fun r' hr' => hreach r' (List.mem_cons_of_mem r hr')) hvis1 hed1 hA1 hA'
    · cases he

theorem visitN_master2 (A B : String)
    (hNoCycle : ¬ Relation.TransGen (edgeRel st) A A)
    (hBw : B ∉ st.deps.written) (hAB : edgeRel st A B) :
    ∀ (fuel : Nat) (p : String) (w w' : Walk) (anc : List String),
      visitN st fuel p w = some (w', none) →
      (∀ a ∈ anc, Relation.TransGen (edgeRel st) a p) →
      VisInv st anc w → EdgesDone st anc w →
      A ∉ w.scripts → A ∈ w'.scripts → Before B A w'.scripts := by
  intro fuel
  induction fuel with
  | zero => intro p w w' anc h; rw [visitN_zero] at h; cases h
  | succ fuel ih =>
    intro p w w' anc h hanc hvis hed hA hA'
    rcases visitN_succ_inv st h with ⟨hw, hww, _⟩ | ⟨hw, hvz, hww, _⟩ |
      ⟨w2, hw, hnv, hrr, hww, _⟩ | ⟨e1, _, _, _, he⟩
    · exact absurd (hww ▸ hA') hA
    · subst hww
      rcases mem_pushScript_inv hA' with h1 | rfl
      · exact absurd h1 hA
      · rcases hvis A hvz with h2 | h2 | h2
        · exact absurd h2 hw
        · exact absurd h2 hA
        · exact absurd (hanc A h2) hNoCycle
    · subst hww
      by_cases hA2 : A ∈ w2.scripts
      · refine before_of_wle (wle_push p w2) ?_
        exact runReqs_master2 st fuel A B ih (reqList st p)
          (p :: anc) _ w2 hrr (hreach_step st hanc)
          (visInv_mark st p hvis) (edgesDone_mark st p hed) hA hA2
      · rcases mem_pushScript_inv hA' with h1 | rfl
        · exact absurd h1 hA2
        · obtain ⟨r, hr, hprov, hlook⟩ := hAB
          obtain ⟨wa, wb, hvb, hwle⟩ :=
            runReqs_each st (visitN_wle st fuel) _ _ _ hrr r hr hprov B hlook
          have hBs : B ∈ w2.scripts := by
            obtain ⟨t, ht⟩ := hwle.2
            rw [ht]
            exact List.mem_append_left t (visitN_emit st fuel B wa wb hvb hBw)
          rw [pushScript, if_neg hA2]
          exact ⟨w2.scripts, [], rfl, hBs⟩
    · cases he

theorem includedLoop_cons_inv {fuel : Nat} {p : String} {ps : List String}
    {w w' : Walk} {e : Option JsError}
    (h : includedLoop st fuel (p :: ps) w = some (w', e)) :
    (p ∈ st.deps.written ∧ includedLoop st fuel ps w = some (w', e)) ∨
    (p ∉ st.deps.written ∧ ∃ w1, visitN st fuel p w = some (w1, none) ∧
      includedLoop st fuel ps w1 = some (w', e)) ∨
    (p ∉ st.deps.written ∧ ∃ e1, visitN st fuel p w = some (w', some e1) ∧
      e = some e1) := by
  rw [includedLoop] at h
  by_cases hw : p ∈ st.deps.written
  · rw [if_pos hw] at h
    exact Or.inl ⟨hw, h⟩
  · rw [if_neg hw] at h
    split at h
    next => cases h
    next w1 e1 hv =>
      injection h with h1
      injection h1 with ha hb
      exact Or.inr (Or.inr ⟨hw, e1, ha ▸ hv, hb.symm⟩)
    next w1 hv =>
      exact Or.inr (Or.inl ⟨hw, w1, hv, h⟩)

theorem includedLoop_wle :
    ∀ (fuel : Nat) (seeds : List String) (w w' : Walk) (e : Option JsError),
      includedLoop st fuel seeds w = some (w', e) → wle w w' := by
  intro fuel seeds
  induction seeds with
  | nil =>
    intro w w' e h
    rw [includedLoop] at h
    injection h with h1
    injection h1 with ha _
    exact ha ▸ wle_refl w
  | cons p ps ih =>
    intro w w' e h
    rcases includedLoop_cons_inv st h with ⟨_, h2⟩ | ⟨_, w1, hv, h2⟩ |
      ⟨_, e1, hv, _⟩
    · exact ih w w' e h2
    · exact wle_trans (visitN_wle st fuel _ _ _ _ hv) (ih w1 w' e h2)
    · exact visitN_wle st fuel _ _ _ _ hv

theorem includedLoop_nodup :
    ∀ (fuel : Nat) (seeds : List String) (w w' : Walk) (e : Option JsError),
      includedLoop st fuel seeds w = some (w', e) →
      w.scripts.Nodup → w'.scripts.Nodup := by
  intro fuel seeds
  induction seeds with
  | nil =>
    intro w w' e h hn
    rw [includedLoop] at h
    injection h with h1
    injection h1 with ha _
    exact ha ▸ hn
  | cons p ps ih =>
    intro w w' e h hn
    rcases includedLoop_cons_inv st h with ⟨_, h2⟩ | ⟨_, w1, hv, h2⟩ |
      ⟨_, e1, hv, _⟩
    · exact ih w w' e h2 hn
    · exact ih w1 w' e h2 (visitN_nodup st fuel _ _ _ _ hv hn)
    · exact visitN_nodup st fuel _ _ _ _ hv hn

theorem includedLoop_newScripts :
    ∀ (fuel : Nat) (seeds : List String) (w w' : Walk) (e : Option JsError),
      includedLoop st fuel seeds w = some (w', e) → ∀ q ∈ w'.scripts,
        q ∈ w.scripts ∨ (q ∉ st.deps.written ∧ q ∈ w'.visited) := by
  intro fuel seeds
  induction seeds with
  | nil =>
    intro w w' e h q hq
    rw [includedLoop] at h
    injection h with h1
    injection h1 with ha _
    exact Or.inl (ha ▸ hq)
  | cons p ps ih =>
    intro w w' e h q hq
    rcases includedLoop_cons_inv st h with ⟨_, h2⟩ | ⟨_, w1, hv, h2⟩ |
      ⟨_, e1, hv, _⟩
    · exact ih w w' e h2 q hq
    · rcases ih w1 w' e h2 q hq with h3 | h3
      · rcases visitN_newScripts st fuel _ _ _ _ hv q h3 with h4 | ⟨h4, h5⟩
        · exact Or.inl h4
        · exact Or.inr ⟨h4, (includedLoop_wle st fuel ps w1 w' e h2).1 q h5⟩
      · exact Or.inr h3
    · exact visitN_newScripts st fuel _ _ _ _ hv q hq

theorem includedLoop_err :
    ∀ (fuel : Nat) (seeds : List String) (w w' : Walk) (r' : String),
      includedLoop st fuel seeds w =
        some (w', some (JsError.undefinedNameToPath r')) →
      alookup st.deps.nameToPath r' = none ∧ isProvidedB st r' = false := by
  intro fuel seeds
  induction seeds with
  | nil =>
    intro w w' r' h
    rw [includedLoop] at h
    injection h with h1
    injection h1 with _ hb
    cases hb
  | cons p ps ih =>
    intro w w' r' h
    rcases includedLoop_cons_inv st h with ⟨_, h2⟩ | ⟨_, w1, _, h2⟩ |
      ⟨_, e1, hv, he⟩
    · exact ih w w' r' h2
    · exact ih w1 w' r' h2
    · injection he with he1
      exact visitN_err st fuel _ _ _ _ (he1 ▸ hv)

theorem includedLoop_seeds :
    ∀ (fuel : Nat) (seeds : List String) (w w' : Walk),
      includedLoop st fuel seeds w = some (w', none) →
      ∀ p ∈ seeds, p ∈ st.deps.written ∨ p ∈ w'.visited := by
  intro fuel seeds
  induction seeds with
  | nil => intro w w' _ p hp; cases hp
  | cons p0 ps ih =>
    intro w w' h p hp
    rcases includedLoop_cons_inv st h with ⟨hw0, h2⟩ | ⟨_, w1, hv, h2⟩ |
      ⟨_, e1, _, he⟩
    · rcases List.mem_cons.mp hp with rfl | hp'
      · exact Or.inl hw0
      · exact ih w w' h2 p hp'
    · rcases List.mem_cons.mp hp with rfl | hp'
      · rcases visitN_seedDone st fuel p w w1 none hv with h3 | h3
        · exact Or.inl h3
        · exact Or.inr ((includedLoop_wle st fuel ps w1 w' none h2).1 p h3)
      · exact ih w1 w' h2 p hp'
    · cases he

theorem includedLoop_master1 :
    ∀ (fuel : Nat) (seeds : List String) (w w' : Walk),
      includedLoop st fuel seeds w = some (w', none) →
      VisInv st [] w → EdgesDone st [] w →
      VisInv st [] w' ∧ EdgesDone st [] w' := by
  intro fuel seeds
  induction seeds with
  | nil =>
    intro w w' h hvis hed
    rw [includedLoop] at h
    injection h with h1
    injection h1 with ha _
    exact ha ▸ ⟨hvis, hed⟩
  | cons p ps ih =>
    intro w w' h hvis hed
    rcases includedLoop_cons_inv st h with ⟨_, h2⟩ | ⟨_, w1, hv, h2⟩ |
      ⟨_, e1, _, he⟩
    · exact ih w w' h2 hvis hed
    · obtain ⟨hvis1, hed1⟩ := visitN_master1 st fuel p w w1 [] hv
        (fun a ha => absurd ha (List.not_mem_nil a)) hvis hed
      exact ih w1 w' h2 hvis1 hed1
    · cases he

theorem includedLoop_master2 (A B : String)
    (hNoCycle : ¬ Relation.TransGen (edgeRel st) A A)
    (hBw : B ∉ st.deps.written) (hAB : edgeRel st A B) :
    ∀ (fuel : Nat) (seeds : List String) (w w' : Walk),
      includedLoop st fuel seeds w = some (w', none) →
      VisInv st [] w → EdgesDone st [] w →
      A ∉ w.scripts → A ∈ w'.scripts → Before B A w'.scripts := by
  intro fuel seeds
  induction seeds with
  | nil =>
    intro w w' h _ _ hA hA'
    rw [includedLoop] at h
    injection h with h1
    injection h1 with ha _
    exact absurd (ha ▸ hA') hA
  | cons p ps ih =>
    intro w w' h hvis hed hA hA'
    rcases includedLoop_cons_inv st h with ⟨_, h2⟩ | ⟨_, w1, hv, h2⟩ |
      ⟨_, e1, _, he⟩
    · exact ih w w' h2 hvis hed hA hA'
    · by_cases hA1 : A ∈ w1.scripts
      · exact before_of_wle (includedLoop_wle st fuel ps w1 w' none h2)
          (visitN_master2 st A B hNoCycle hBw hAB fuel p w w1 [] hv
            (fun a ha => absurd ha (List.not_mem_nil a)) hvis hed hA hA1)
      · obtain ⟨hvis1, hed1⟩ := visitN_master1 st fuel p w w1 [] hv
          (fun a ha => absurd ha (List.not_mem_nil a)) hvis hed
        exact ih w1 w' h2 hvis1 hed1 hA1 hA'
    · cases he

end WalkLemmas

section InjectLemmas

variable (inject : String → Bool)

theorem injectLoop_err :
    ∀ (l : List String) (st0 : LoaderState) (acc : List String),
      (injectLoop inject st0 l acc).error = none ∨
      (injectLoop inject st0 l acc).error = some JsError.undefinedScriptInput := by
  intro l
  induction l with
  | nil => intro st0 acc; exact Or.inl rfl
  | cons s rest ih =>
    intro st0 acc
    rw [injectLoop]
    by_cases hs : s = ""
    · rw [if_pos hs]
      exact Or.inr rfl
    · rw [if_neg hs]
      by_cases hw : st0.basePath ++ s ∈ st0.deps.written
      · rw [if_pos hw]; exact ih st0 acc
      · rw [if_neg hw]
        by_cases hi : inject (st0.basePath ++ s) = true
        · rw [if_pos hi]; exact ih _ _
        · rw [if_neg hi]; exact ih _ _

theorem injectLoop_shape :
    ∀ (l : List String) (st0 : LoaderState) (acc : List String),
      ∃ wr, (injectLoop inject st0 l acc).state =
          { st0 with deps := { st0.deps with written := wr } } ∧
        (∀ s ∈ st0.deps.written, s ∈ wr) := by
  intro l
  induction l with
  | nil =>
    intro st0 acc
    exact ⟨st0.deps.written, rfl, fun s hs => hs⟩
  | cons s rest ih =>
    intro st0 acc
    rw [injectLoop]
    by_cases hs : s = ""
    · rw [if_pos hs]
      exact ⟨st0.deps.written, rfl, fun s hs => hs⟩
    · rw [if_neg hs]
      by_cases hw : st0.basePath ++ s ∈ st0.deps.written
      · rw [if_pos hw]; exact ih st0 acc
      · rw [if_neg hw]
        by_cases hi : inject (st0.basePath ++ s) = true
        · rw [if_pos hi]
          obtain ⟨wr, hst, hsub⟩ := ih (addWritten st0 (st0.basePath ++ s)) _
          refine ⟨wr, hst, fun x hx => hsub x ?_⟩
          exact List.mem_append_left _ hx
        · rw [if_neg hi]; exact ih _ _

theorem injectLoop_no_rewrite :
    ∀ (l : List String) (st0 : LoaderState) (acc : List String) (src : String),
      src ∈ st0.deps.written → src ∉ acc →
      src ∉ (injectLoop inject st0 l acc).injected := by
  intro l
  induction l with
  | nil =>
    intro st0 acc src _ hacc
    rw [injectLoop]
    exact fun hc => hacc (List.mem_reverse.mp hc)
  | cons s rest ih =>
    intro st0 acc src hw hacc
    rw [injectLoop]
    by_cases hs : s = ""
    · rw [if_pos hs]
      exact fun hc => hacc (List.mem_reverse.mp hc)
    · rw [if_neg hs]
      by_cases hw' : st0.basePath ++ s ∈ st0.deps.written
      · rw [if_pos hw']; exact ih st0 acc src hw hacc
      · rw [if_neg hw']
        have hne : st0.basePath ++ s ≠ src := fun hc => hw' (hc ▸ hw)
        by_cases hi : inject (st0.basePath ++ s) = true
        · rw [if_pos hi]
          refine ih _ _ src (List.mem_append_left _ hw) ?_
          intro hc
          rcases List.mem_cons.mp hc with hc1 | hc1
          · exact hne hc1.symm
          · exact hacc hc1
        · rw [if_neg hi]
          refine ih _ _ src hw ?_
          intro hc
          rcases List.mem_cons.mp hc with hc1 | hc1
          · exact hne hc1.symm
          · exact hacc hc1

theorem injectLoop_sub :
    ∀ (l : List String) (st0 : LoaderState) (acc : List String),
      ∃ sub, List.Sublist sub l ∧
        (injectLoop inject st0 l acc).injected =
          acc.reverse ++ sub.map (fun s => st0.basePath ++ s) := by
  intro l
  induction l with
  | nil =>
    intro st0 acc
    exact ⟨[], List.Sublist.refl [], by simp [injectLoop]⟩
  | cons s rest ih =>
    intro st0 acc
    rw [injectLoop]
    by_cases hs : s = ""
    · rw [if_pos hs]
      exact ⟨[], List.nil_sublist _, by simp⟩
    · rw [if_neg hs]
      by_cases hw : st0.basePath ++ s ∈ st0.deps.written
      · rw [if_pos hw]
        obtain ⟨sub, hsl, hinj⟩ := ih st0 acc
        exact ⟨sub, List.Sublist.cons s hsl, hinj⟩
      · rw [if_neg hw]
        by_cases hi : inject (st0.basePath ++ s) = true
        · rw [if_pos hi]
          obtain ⟨sub, hsl, hinj⟩ := ih (addWritten st0 (st0.basePath ++ s))
            ((st0.basePath ++ s) :: acc)
          refine ⟨s :: sub, List.Sublist.cons₂ s hsl, ?_⟩
          rw [hinj]
          simp
        · rw [if_neg hi]
          obtain ⟨sub, hsl, hinj⟩ := ih st0 ((st0.basePath ++ s) :: acc)
          refine ⟨s :: sub, List.Sublist.cons₂ s hsl, ?_⟩
          rw [hinj]
          simp

end InjectLemmas

section RunLemmas

theorem writeScripts_inv {inject : String → Bool} {st : LoaderState}
    {res : RunResult} (h : writeScripts inject st = some res) :
    (∃ w e, includedLoop st (walkFuel st) st.included
        ⟨st.deps.visited, []⟩ = some (w, some e) ∧
      res = ⟨setVisited st w.visited, [], some e⟩) ∨
    (∃ w, includedLoop st (walkFuel st) st.included
        ⟨st.deps.visited, []⟩ = some (w, none) ∧
      res = injectLoop inject (setVisited st w.visited) w.scripts []) := by
  rw [writeScripts] at h
  split at h
  next => cases h
  next w e hil =>
    injection h with h1
    exact Or.inl ⟨w, e, hil, h1.symm⟩
  next w hil =>
    injection h with h1
    exact Or.inr ⟨w, hil, h1.symm⟩

theorem requireNs_inv {name : String} {inject : String → Bool}
    {st : LoaderState} {res : RunResult}
    (h : requireNs name inject st = some res) :
    (isProvidedB st name = true ∧ res = ⟨st, [], none⟩) ∨
    (isProvidedB st name = false ∧ alookup st.deps.nameToPath name = none ∧
      res = ⟨st, [], some (JsError.requireCouldNotFind name)⟩) ∨
    (∃ path, isProvidedB st name = false ∧
      alookup st.deps.nameToPath name = some path ∧
      writeScripts inject { st with included := addKey st.included path } =
        some res) := by
  rw [requireNs] at h
  by_cases hp : isProvidedB st name = true
  · rw [if_pos hp] at h
    injection h with h1
    exact Or.inl ⟨hp, h1.symm⟩
  · rw [if_neg hp] at h
    have hp' : isProvidedB st name = false := (Bool.not_eq_true _).mp hp
    split at h
    next path hl => exact Or.inr (Or.inr ⟨path, hp', hl, h⟩)
    next hl =>
      injection h with h1
      exact Or.inr (Or.inl ⟨hp', hl, h1.symm⟩)

end RunLemmas

section OrderLemmas

theorem string_append_cancel {a b c : String} (h : a ++ b = a ++ c) : b = c := by
  have h2 : (a ++ b).data = (a ++ c).data := by rw [h]
  rw [String.data_append, String.data_append] at h2
  exact congrArg String.mk (List.append_cancel_left h2)

theorem before_ne {b a : String} {l : List String} (hn : l.Nodup)
    (h : Before b a l) : b ≠ a := by
  obtain ⟨l₁, l₂, rfl, hb⟩ := h
  intro hc
  subst hc
  exact (List.Nodup.not_mem (List.nodup_middle.mp hn)) (List.mem_append_left l₂ hb)

theorem before_sublist {b a : String} :
    ∀ (l s : List String), Before b a l → List.Sublist s l → l.Nodup →
      a ∈ s → b ∈ s → Before b a s := by
  intro l
  induction l with
  | nil => intro s h _ _ _; obtain ⟨l₁, l₂, hl, _⟩ := h; cases l₁ <;> cases hl
  | cons y l' ih =>
    intro s hba hsl hnd has hbs
    have hnd' : l'.Nodup := (List.nodup_cons.mp hnd).2
    have hyl' : y ∉ l' := (List.nodup_cons.mp hnd).1
    cases hsl with
    | cons _ hsl' =>
      obtain ⟨l₁, l₂, hl, hb⟩ := hba
      cases l₁ with
      | nil =>
        injection hl with h1 h2
        subst h1
        cases hb
      | cons z l₁' =>
        injection hl with h1 h2
        subst h1
        have hba' : Before b a l' := ⟨l₁', l₂, h2, by
          rcases List.mem_cons.mp hb with rfl | hb'
          · exfalso
            exact hyl' (hsl'.subset hbs)
          · exact hb'⟩
        exact ih s hba' hsl' hnd' has hbs
    | cons₂ _ hsl' =>
      next s' =>
      have hay : a ≠ y := by
        rintro rfl
        obtain ⟨l₁, l₂, hl, hb⟩ := hba
        cases l₁ with
        | nil => injection hl with h1 _; cases hb
        | cons z l₁' =>
          injection hl with h1 h2
          exact hyl' (h2 ▸ List.mem_append_right l₁' (List.mem_cons_self a l₂))
      have has' : a ∈ s' := by
        rcases List.mem_cons.mp has with rfl | h
        · exact absurd rfl hay
        · exact h
      rcases List.mem_cons.mp hbs with rfl | hbs'
      · obtain ⟨s₁, s₂, hs⟩ := List.append_of_mem has'
        exact ⟨b :: s₁, s₂, by rw [hs]; simp, List.mem_cons_self b s₁⟩
      · obtain ⟨l₁, l₂, hl, hb⟩ := hba
        cases l₁ with
        | nil => injection hl with h1 _; exact absurd h1.symm hay
        | cons z l₁' =>
          injection hl with h1 h2
          subst h1
          have hba' : Before b a l' := ⟨l₁', l₂, h2, by
            rcases List.mem_cons.mp hb with rfl | hb'
            · exfalso
              exact hyl' (hsl'.subset hbs')
            · exact hb'⟩
          obtain ⟨s₁, s₂, hs, hbmem⟩ := ih s' hba' hsl' hnd' has' hbs'
          exact ⟨y :: s₁, s₂, by rw [hs]; simp, List.mem_cons_of_mem y hbmem⟩

theorem before_map {b a : String} {s : List String} (f : String → String)
    (h : Before b a s) : Before (f b) (f a) (s.map f) := by
  obtain ⟨s₁, s₂, rfl, hb⟩ := h
  exact ⟨s₁.map f, s₂.map f, by simp, List.mem_map_of_mem f hb⟩

theorem addKey_mem (l : List String) (k : String) : k ∈ addKey l k := by
  unfold addKey
  split
  · assumption
  · simp

theorem addKey_idem (l : List String) (k : String) :
    addKey (addKey l k) k = addKey l k := by
  show (if k ∈ addKey l k then addKey l k else addKey l k ++ [k]) = addKey l k
  rw [if_pos (addKey_mem l k)]

end OrderLemmas

section PassTwoLemmas

variable (inject : String → Bool)

theorem injectLoop_acc_mem :
    ∀ (l : List String) (st0 : LoaderState) (acc : List String) (x : String),
      x ∈ acc → x ∈ (injectLoop inject st0 l acc).injected := by
  intro l st0 acc x hx
  obtain ⟨sub, _, hinj⟩ := injectLoop_sub inject l st0 acc
  rw [hinj]
  exact List.mem_append_left _ (List.mem_reverse.mpr hx)

theorem injectLoop_no_empty :
    ∀ (l : List String) (st0 : LoaderState) (acc : List String),
      (injectLoop inject st0 l acc).error = none → ∀ s ∈ l, s ≠ "" := by
  intro l
  induction l with
  | nil => intro st0 acc _ s hs; cases hs
  | cons s0 rest ih =>
    intro st0 acc herr s hs
    rw [injectLoop] at herr
    by_cases hs0 : s0 = ""
    · rw [if_pos hs0] at herr
      cases herr
    · rw [if_neg hs0] at herr
      rcases List.mem_cons.mp hs with rfl | hs'
      · exact hs0
      · by_cases hw : st0.basePath ++ s0 ∈ st0.deps.written
        · rw [if_pos hw] at herr
          exact ih st0 acc herr s hs'
        · rw [if_neg hw] at herr
          by_cases hi : inject (st0.basePath ++ s0) = true
          · rw [if_pos hi] at herr
            exact ih _ _ herr s hs'
          · rw [if_neg hi] at herr
            exact ih _ _ herr s hs'

theorem injectLoop_covers :
    ∀ (l : List String) (st0 : LoaderState) (acc : List String),
      (injectLoop inject st0 l acc).error = none → ∀ s ∈ l,
        (st0.basePath ++ s) ∈ (injectLoop inject st0 l acc).injected ∨
        (st0.basePath ++ s) ∈ st0.deps.written ∨ (st0.basePath ++ s) ∈ acc := by
  intro l
  induction l with
  | nil => intro st0 acc _ s hs; cases hs
  | cons s0 rest ih =>
    intro st0 acc herr s hs
    rw [injectLoop] at herr ⊢
    by_cases hs0 : s0 = ""
    · rw [if_pos hs0] at herr
      cases herr
    · rw [if_neg hs0] at herr ⊢
      by_cases hw : st0.basePath ++ s0 ∈ st0.deps.written
      · rw [if_pos hw] at herr ⊢
        rcases List.mem_cons.mp hs with rfl | hs'
        · exact Or.inr (Or.inl hw)
        · exact ih st0 acc herr s hs'
      · rw [if_neg hw] at herr ⊢
        by_cases hi : inject (st0.basePath ++ s0) = true
        · rw [if_pos hi] at herr ⊢
          rcases List.mem_cons.mp hs with rfl | hs'
          · exact Or.inl (injectLoop_acc_mem inject _ _ _ _
              (List.mem_cons_self _ _))
          · rcases ih _ _ herr s hs' with h1 | h1 | h1
            · exact Or.inl h1
            · rcases List.mem_append.mp h1 with h2 | h2
              · exact Or.inr (Or.inl h2)
              · rw [List.mem_singleton] at h2
                exact Or.inl (h2 ▸ injectLoop_acc_mem inject _ _ _ _
                  (List.mem_cons_self _ _))
            · rcases List.mem_cons.mp h1 with h2 | h2
              · exact Or.inl (h2 ▸ injectLoop_acc_mem inject _ _ _ _
                  (List.mem_cons_self _ _))
              · exact Or.inr (Or.inr h2)
        · rw [if_neg hi] at herr ⊢
          rcases List.mem_cons.mp hs with rfl | hs'
          · exact Or.inl (injectLoop_acc_mem inject _ _ _ _
              (List.mem_cons_self _ _))
          · rcases ih _ _ herr s hs' with h1 | h1 | h1
            · exact Or.inl h1
            · exact Or.inr (Or.inl h1)
            · rcases List.mem_cons.mp h1 with h2 | h2
              · exact Or.inl (h2 ▸ injectLoop_acc_mem inject _ _ _ _
                  (List.mem_cons_self _ _))
              · exact Or.inr (Or.inr h2)

theorem injectLoop_all_skip :
    ∀ (l : List String) (st0 : LoaderState) (acc : List String),
      (∀ s ∈ l, s ≠ "" ∧ (st0.basePath ++ s) ∈ st0.deps.written) →
      injectLoop inject st0 l acc = ⟨st0, acc.reverse, none⟩ := by
  intro l
  induction l with
  | nil => intro st0 acc _; rfl
  | cons s0 rest ih =>
    intro st0 acc hall
    obtain ⟨hs0, hw0⟩ := hall s0 (List.mem_cons_self s0 rest)
    rw [injectLoop, if_neg hs0, if_pos hw0]
    exact ih st0 acc (fun s hs => hall s (List.mem_cons_of_mem s0 hs))

end PassTwoLemmas

section SeedLemmas

variable (st : LoaderState)

theorem includedLoop_seed_scripts :
    ∀ (fuel : Nat) (seeds : List String) (w w' : Walk),
      includedLoop st fuel seeds w = some (w', none) →
      ∀ p ∈ seeds, p ∉ st.deps.written → p ∈ w'.scripts := by
  intro fuel seeds
  induction seeds with
  | nil => intro w w' _ p hp; cases hp
  | cons p0 ps ih =>
    intro w w' h p hp hpw
    rcases includedLoop_cons_inv st h with ⟨hw0, h2⟩ | ⟨hw0, w1, hv, h2⟩ |
      ⟨_, e1, _, he⟩
    · rcases List.mem_cons.mp hp with rfl | hp'
      · exact absurd hw0 hpw
      · exact ih w w' h2 p hp' hpw
    · rcases List.mem_cons.mp hp with rfl | hp'
      · obtain ⟨t, ht⟩ := (includedLoop_wle st fuel ps w1 w' none h2).2
        rw [ht]
        exact List.mem_append_left t (visitN_emit st fuel p w w1 hv hpw)
      · exact ih w1 w' h2 p hp' hpw
    · cases he

theorem includedLoop_shortcut :
    ∀ (seeds : List String) (w : Walk),
      (∀ p ∈ seeds, p ∈ st.deps.written ∨ p ∈ w.visited) →
      ∃ w₂, includedLoop st (walkFuel st) seeds w = some (w₂, none) ∧
        w₂.visited = w.visited ∧
        ∀ s ∈ w₂.scripts, s ∈ w.scripts ∨
          (s ∈ seeds ∧ s ∉ st.deps.written ∧ s ∈ w.visited) := by
  intro seeds
  induction seeds with
  | nil =>
    intro w _
    exact ⟨w, rfl, rfl, fun s hs => Or.inl hs⟩
  | cons p0 ps ih =>
    intro w hall
    rw [includedLoop]
    by_cases hw0 : p0 ∈ st.deps.written
    · rw [if_pos hw0]
      obtain ⟨w₂, hloop, hvis, hscr⟩ := ih w
        (fun p hp => hall p (List.mem_cons_of_mem p0 hp))
      refine ⟨w₂, hloop, hvis, fun s hs => ?_⟩
      rcases hscr s hs with h1 | ⟨h1, h2, h3⟩
      · exact Or.inl h1
      · exact Or.inr ⟨List.mem_cons_of_mem p0 h1, h2, h3⟩
    · rw [if_neg hw0]
      have hv0 : p0 ∈ w.visited :=
        (hall p0 (List.mem_cons_self p0 ps)).resolve_left hw0
      have hvn : visitN st (walkFuel st) p0 w = some (pushScript p0 w, none) := by
        rw [show walkFuel st = (st.deps.nameToPath.length + 1) + 1 from rfl,
          visitN_succ, if_neg hw0, if_pos hv0]
      rw [hvn]
      obtain ⟨w₂, hloop, hvis, hscr⟩ := ih (pushScript p0 w)
        (fun p hp => by
          rw [pushScript_visited]
          exact hall p (List.mem_cons_of_mem p0 hp))
      refine ⟨w₂, hloop, by rw [hvis, pushScript_visited], fun s hs => ?_⟩
      rcases hscr s hs with h1 | ⟨h1, h2, h3⟩
      · rcases mem_pushScript_inv h1 with h2 | rfl
        · exact Or.inl h2
        · exact Or.inr ⟨List.mem_cons_self s ps, hw0, hv0⟩
      · rw [pushScript_visited] at h3
        exact Or.inr ⟨List.mem_cons_of_mem p0 h1, h2, h3⟩

end SeedLemmas

/-- C7: requesting a namespace with no registered owner throws the
`goog.require could not find` error naming it, with nothing injected and the
state untouched; a pass that reaches a required namespace with neither an
owner nor a materialization aborts with `Undefined nameToPath` carrying that
namespace before any injection of the pass happens; and entries of the
already-injected record are never removed by a request. -/
theorem C7_unresolved (st : LoaderState) (name : String)
    (inject : String → Bool) :
    (isProvidedB st name = false → alookup st.deps.nameToPath name = none →
      requireNs name inject st =
        some ⟨st, [], some (JsError.requireCouldNotFind name)⟩) ∧
    (∀ res r, requireNs name inject st = some res →
      res.error = some (JsError.undefinedNameToPath r) →
      res.injected = [] ∧ alookup st.deps.nameToPath r = none ∧
        isProvidedB st r = false) ∧
    (∀ res, requireNs name inject st = some res →
      ∀ s ∈ st.deps.written, s ∈ res.state.deps.written) := by
  refine ⟨?_, ?_, ?_⟩
  · intro h1 h2
    rw [requireNs, if_neg (by simp [h1]), h2]
  · intro res r h he
    rcases requireNs_inv h with ⟨_, rfl⟩ | ⟨_, _, rfl⟩ | ⟨path, hp, hl, hws⟩
    · simp at he
    · simp at he
    · rcases writeScripts_inv hws with ⟨w, e, hil, rfl⟩ | ⟨w, hil, rfl⟩
      · refine ⟨rfl, ?_⟩
        injection he with he1
        subst he1
        exact includedLoop_err { st with included := addKey st.included path }
          _ _ _ _ _ hil
      · rcases injectLoop_err inject w.scripts _ [] with h1 | h1
        · rw [h1] at he; cases he
        · rw [h1] at he
          injection he with he1
          cases he1
  · intro res h s hs
    rcases requireNs_inv h with ⟨_, rfl⟩ | ⟨_, _, rfl⟩ | ⟨path, hp, hl, hws⟩
    · exact hs
    · exact hs
    · rcases writeScripts_inv hws with ⟨w, e, hil, rfl⟩ | ⟨w, hil, rfl⟩
      · exact hs
      · obtain ⟨wr, hst, hsub⟩ := injectLoop_shape inject w.scripts _ []
        rw [hst]
        exact hsub s hs

/-- C7 (witness): requesting the unowned `nothing` throws the
could-not-find error, and the `Undefined nameToPath for nothing` pass of
`C9_counterexample`'s first request injects nothing while `nothing` indeed
has no owner and no materialization. -/
theorem C7_witness :
    requireNs "nothing" alwaysInject stateUnresolved =
      some ⟨stateUnresolved, [], some (JsError.requireCouldNotFind "nothing")⟩ ∧
    (runC9a.injected = [] ∧
      alookup stateUnresolved.deps.nameToPath "nothing" = none ∧
      isProvidedB stateUnresolved "nothing" = false) :=
  ⟨(C7_unresolved stateUnresolved "nothing" alwaysInject).1 (by decide) rfl,
   (C7_unresolved stateUnresolved "x" alwaysInject).2.1 runC9a "nothing" rfl rfl⟩

/-- C9 (amended): both the visitation record `deps.visited` and the
already-injected record `deps.written` persist across passes — a request
never removes entries from either; only the `scripts`/`seenScript` data of
`goog.writeScripts_` is local to one pass.  A module visited but not yet
injected in an earlier pass therefore starts the next pass as visited, as
`C9_counterexample` exhibits concretely. -/
theorem C9_state_persists (st : LoaderState) (n : String)
    (inject : String → Bool) (res : RunResult)
    (h : requireNs n inject st = some res) :
    (∀ p ∈ st.deps.visited, p ∈ res.state.deps.visited) ∧
    (∀ s ∈ st.deps.written, s ∈ res.state.deps.written) := by
  rcases requireNs_inv h with ⟨_, rfl⟩ | ⟨_, _, rfl⟩ | ⟨path, hp, hl, hws⟩
  · exact ⟨fun p hp => hp, fun s hs => hs⟩
  · exact ⟨fun p hp => hp, fun s hs => hs⟩
  · rcases writeScripts_inv hws with ⟨w, e, hil, rfl⟩ | ⟨w, hil, rfl⟩
    · exact ⟨fun p hp => (includedLoop_wle _ _ _ _ _ _ hil).1 p hp,
        fun s hs => hs⟩
    · obtain ⟨wr, hst, hsub⟩ := injectLoop_shape inject w.scripts _ []
      rw [hst]
      exact ⟨fun p hp => (includedLoop_wle _ _ _ _ _ _ hil).1 p hp,
        fun s hs => hsub s hs⟩

/-- C9 (witness): the visited entry `m.js` of the first, failed pass is still
visited after the second request. -/
theorem C9_witness :
    "m.js" ∈ runC9a.state.deps.visited ∧
    "m.js" ∈ runC9b.state.deps.visited :=
  ⟨by decide,
   (C9_state_persists runC9a.state "x" alwaysInject runC9b rfl).1 "m.js" (by decide)⟩

/-- C2: resolution is cycle-safe.  Every request terminates (the walk's fuel
bound is never reached); the injection sequence of a pass never repeats a
module; the `Undefined nameToPath` error is only caused by a required
namespace with no owner and no materialization — never by a cycle alone —
and, starting from a pass whose visited record is covered by the written
record, every effective dependency edge out of an injected module leads to a
module injected in the same pass or already written, so every module of a
cycle the pass reaches is emitted (exactly once, by the no-repeat part). -/
theorem C2_cycle_safe (st : LoaderState) (n : String) (inject : String → Bool) :
    (requireNs n inject st ≠ none) ∧
    (∀ res, requireNs n inject st = some res → res.injected.Nodup) ∧
    (∀ res r, requireNs n inject st = some res →
      res.error = some (JsError.undefinedNameToPath r) →
      alookup st.deps.nameToPath r = none ∧ isProvidedB st r = false) ∧
    ((∀ p ∈ st.deps.visited, p ∈ st.deps.written) →
      ∀ res, requireNs n inject st = some res → res.error = none →
      ∀ a b, (st.basePath ++ a) ∈ res.injected → edgeRel st a b →
        (st.basePath ++ b) ∈ res.injected ∨
        (st.basePath ++ b) ∈ st.deps.written ∨ b ∈ st.deps.written) := by
  refine ⟨requireNs_total n inject st, ?_, ?_, ?_⟩
  · intro res h
    rcases requireNs_inv h with ⟨_, rfl⟩ | ⟨_, _, rfl⟩ | ⟨path, hp, hl, hws⟩
    · exact List.nodup_nil
    · exact List.nodup_nil
    · rcases writeScripts_inv hws with ⟨w, e, hil, rfl⟩ | ⟨w, hil, rfl⟩
      · exact List.nodup_nil
      · obtain ⟨sub, hsl, hinj⟩ := injectLoop_sub inject w.scripts _ []
        have hns : w.scripts.Nodup :=
          includedLoop_nodup _ _ _ _ _ _ hil List.nodup_nil
        show ((injectLoop inject _ w.scripts []).injected).Nodup
        rw [hinj]
        simp only [List.reverse_nil, List.nil_append]
        exact (hns.sublist hsl).map (fun x y hxy => string_append_cancel hxy)
  · intro res r h he
    rcases requireNs_inv h with ⟨_, rfl⟩ | ⟨_, _, rfl⟩ | ⟨path, hp, hl, hws⟩
    · simp at he
    · simp at he
    · rcases writeScripts_inv hws with ⟨w, e, hil, rfl⟩ | ⟨w, hil, rfl⟩
      · injection he with he1
        subst he1
        exact includedLoop_err { st with included := addKey st.included path }
          _ _ _ _ _ hil
      · rcases injectLoop_err inject w.scripts _ [] with h1 | h1
        · rw [h1] at he; cases he
        · rw [h1] at he
          injection he with he1
          cases he1
  · intro hclean res h herr a b ha hedge
    rcases requireNs_inv h with ⟨_, rfl⟩ | ⟨_, _, rfl⟩ | ⟨path, hp, hl, hws⟩
    · cases ha
    · simp at herr
    · rcases writeScripts_inv hws with ⟨w, e, hil, rfl⟩ | ⟨w, hil, rfl⟩
      · simp at herr
      · obtain ⟨sub, hsl, hinj⟩ := injectLoop_sub inject w.scripts _ []
        have hmem : a ∈ w.scripts := by
          rw [hinj] at ha
          simp only [List.reverse_nil, List.nil_append] at ha
          obtain ⟨s, hsmem, hseq⟩ := List.mem_map.mp ha
          have hseq' : st.basePath ++ s = st.basePath ++ a := hseq
          rw [string_append_cancel hseq'] at hsmem
          exact hsl.subset hsmem
        have hvis0 : VisInv { st with included := addKey st.included path } []
            ⟨st.deps.visited, []⟩ := fun v hv => Or.inl (hclean v hv)
        have hed0 : EdgesDone { st with included := addKey st.included path } []
            ⟨st.deps.visited, []⟩ :=
          fun m hm _ hnw _ _ => absurd (hclean m hm) hnw
        obtain ⟨hvisF, hedF⟩ :=
          includedLoop_master1 _ _ _ _ w hil hvis0 hed0
        rcases includedLoop_newScripts _ _ _ _ _ _ hil a hmem with h0 | ⟨hanw, hav⟩
        · cases h0
        · rcases hedF a hav (List.not_mem_nil a) hanw b hedge with hb | hb
          · exact Or.inr (Or.inr hb)
          · rcases hvisF b hb with hb2 | hb2 | hb2
            · exact Or.inr (Or.inr hb2)
            · rcases injectLoop_covers inject w.scripts _ [] herr b hb2
                with h3 | h3 | h3
              · exact Or.inl h3
              · exact Or.inr (Or.inl h3)
              · cases h3
            · cases hb2

/-- C1 (counterexample): in `depsCycleSkew`, `A.js` requires `r1`, provided
by `B.js`; `B.js` records no requires at all, so `A.js` and `B.js` do not
reach each other through a requires-cycle; both appear in the injection
sequence of requesting `nsA` from the fresh state — yet `A.js` is injected
strictly before `B.js`: when the cycle through `C.js` re-reaches the
still-visiting `A.js`, `visitNode` emits `A.js` at once, before its
remaining require `r1` has been processed. -/
theorem C1_counterexample :
    requireNs "nsA" alwaysInject stateCycleSkew = some runCycleSkew ∧
    runCycleSkew.error = none ∧
    runCycleSkew.injected = ["A.js", "C.js", "B.js"] ∧
    "r1" ∈ reqList stateCycleSkew "A.js" ∧
    isProvidedB stateCycleSkew "r1" = false ∧
    alookup stateCycleSkew.deps.nameToPath "r1" = some "B.js" ∧
    reqList stateCycleSkew "B.js" = [] ∧
    ¬ Before "B.js" "A.js" runCycleSkew.injected := by
  refine ⟨rfl, rfl, rfl, by decide, rfl, rfl, rfl, ?_⟩
  rintro ⟨l₁, l₂, hl, hb⟩
  have hl' : ["A.js", "C.js", "B.js"] = l₁ ++ "A.js" :: l₂ := hl
  cases l₁ with
  | nil => cases hb
  | cons x t =>
    injection hl' with h1 h2
    cases t with
    | nil =>
      injection h2 with h3 _
      exact absurd h3 (by decide)
    | cons y t2 =>
      injection h2 with h3 h4
      cases t2 with
      | nil =>
        injection h4 with h5 _
        exact absurd h5 (by decide)
      | cons z t3 =>
        injection h4 with _ h6
        cases t3 with
        | nil => cases h6
        | cons u t4 => cases h6

/-- C1 (amended): B is injected strictly before A whenever A records a
require `r` owned by B, provided additionally that (i) the pass starts with
every visited module already written (no visitation pollution from an
earlier aborted pass), (ii) `r` is not independently materialized
(`isProvided` false, otherwise the edge is skipped), and (iii) A itself lies
on no effective requires-cycle (otherwise the cycle branch of `visitNode`
can emit A before its remaining requires are processed).  Under the original
claim's assumption that neither module reaches the other through a cycle,
(iii) is the part the counterexample forces. -/
theorem C1_order (st : LoaderState) (n : String) (inject : String → Bool)
    (res : RunResult) (A B r : String)
    (hreq : requireNs n inject st = some res) (herr : res.error = none)
    (hclean : ∀ p ∈ st.deps.visited, p ∈ st.deps.written)
    (hr : r ∈ reqList st A) (hprov : isProvidedB st r = false)
    (hlook : alookup st.deps.nameToPath r = some B)
    (hNoCycle : ¬ Relation.TransGen (edgeRel st) A A)
    (hA : (st.basePath ++ A) ∈ res.injected)
    (hB : (st.basePath ++ B) ∈ res.injected) :
    Before (st.basePath ++ B) (st.basePath ++ A) res.injected := by
  rcases requireNs_inv hreq with ⟨_, rfl⟩ | ⟨_, _, rfl⟩ | ⟨path, hp, hl, hws⟩
  · cases hA
  · simp at herr
  · rcases writeScripts_inv hws with ⟨w, e, hil, rfl⟩ | ⟨w, hil, rfl⟩
    · simp at herr
    · obtain ⟨sub, hsl, hinj⟩ := injectLoop_sub inject w.scripts _ []
      have hmemA : A ∈ sub := by
        rw [hinj] at hA
        simp only [List.reverse_nil, List.nil_append] at hA
        obtain ⟨s, hsmem, hseq⟩ := List.mem_map.mp hA
        have hseq' : st.basePath ++ s = st.basePath ++ A := hseq
        rw [string_append_cancel hseq'] at hsmem
        exact hsmem
      have hmemB : B ∈ sub := by
        rw [hinj] at hB
        simp only [List.reverse_nil, List.nil_append] at hB
        obtain ⟨s, hsmem, hseq⟩ := List.mem_map.mp hB
        have hseq' : st.basePath ++ s = st.basePath ++ B := hseq
        rw [string_append_cancel hseq'] at hsmem
        exact hsmem
      have hsA : A ∈ w.scripts := hsl.subset hmemA
      have hsB : B ∈ w.scripts := hsl.subset hmemB
      have hnds : w.scripts.Nodup :=
        includedLoop_nodup _ _ _ _ _ _ hil List.nodup_nil
      have hBw : B ∉ st.deps.written := by
        rcases includedLoop_newScripts _ _ _ _ _ _ hil B hsB with h0 | ⟨hBw, _⟩
        · cases h0
        · exact hBw
      have hvis0 : VisInv { st with included := addKey st.included path } []
          ⟨st.deps.visited, []⟩ := fun v hv => Or.inl (hclean v hv)
      have hed0 : EdgesDone { st with included := addKey st.included path } []
          ⟨st.deps.visited, []⟩ :=
        fun m hm _ hnw _ _ => absurd (hclean m hm) hnw
      have hbefore : Before B A w.scripts :=
        includedLoop_master2 { st with included := addKey st.included path }
          A B hNoCycle hBw ⟨r, hr, hprov, hlook⟩ _ _ _ w hil hvis0 hed0
          (List.not_mem_nil A) hsA
      have hsub : Before B A sub :=
        before_sublist w.scripts sub hbefore hsl hnds hmemA hmemB
      have hmap := before_map (fun s => st.basePath ++ s) hsub
      show Before _ _ ((injectLoop inject _ w.scripts []).injected)
      rw [hinj]
      simp only [List.reverse_nil, List.nil_append]
      exact hmap

/-- C1 (witness for the amended claim): on the two-module chain, requesting
`y` injects `m1.js` strictly before `m2.js`, which requires `x` owned by
`m1.js`. -/
theorem C1_witness :
    runChain.injected = ["m1.js", "m2.js"] ∧
    Before (stateChain.basePath ++ "m1.js") (stateChain.basePath ++ "m2.js")
      runChain.injected := by
  have hno : ∀ c, ¬ edgeRel stateChain c "m2.js" := by
    rintro c ⟨r, hr, hprov, hlook⟩
    by_cases hc : c = "m2.js"
    · subst hc
      have hr' : r ∈ ["x"] := hr
      rw [List.mem_singleton] at hr'
      subst hr'
      have hlook' : (some "m1.js" : Option String) = some "m2.js" := hlook
      injection hlook' with h1
      exact absurd h1 (by decide)
    · have hempty : reqList stateChain c = [] := by
        show (alookup stateChain.deps.requiresIdx c).getD [] = []
        rw [show stateChain.deps.requiresIdx = [("m2.js", ["x"])] from rfl,
          alookup, if_neg (fun h => hc h.symm), alookup]
        rfl
      rw [hempty] at hr
      cases hr
  have hNoCycle : ¬ Relation.TransGen (edgeRel stateChain) "m2.js" "m2.js" := by
    intro h
    cases h with
    | single h1 => exact hno _ h1
    | tail h1 h2 => exact hno _ h2
  exact ⟨rfl,
    C1_order stateChain "y" alwaysInject runChain "m2.js" "m1.js" "x" rfl rfl
      (by decide) (by decide) (by decide) rfl hNoCycle (by decide) (by decide)⟩

/-- C2 (witness): on the two-module cycle `a.js ↔ b.js`, requesting `nsA`
completes with no error, injects each cycle module exactly once, and the
closure part applied to the edge `b.js → a.js` confirms `a.js` is injected. -/
theorem C2_witness :
    requireNs "nsA" alwaysInject stateCyc = some runCyc ∧
    runCyc.error = none ∧
    runCyc.injected = ["a.js", "b.js"] ∧
    runCyc.injected.Nodup ∧
    (("" ++ "a.js") ∈ runCyc.injected ∨
      ("" ++ "a.js") ∈ stateCyc.deps.written ∨
      "a.js" ∈ stateCyc.deps.written) :=
  ⟨rfl, rfl, rfl,
   (C2_cycle_safe stateCyc "nsA" alwaysInject).2.1 runCyc rfl,
   (C2_cycle_safe stateCyc "nsA" alwaysInject).2.2.2 (by decide) runCyc rfl rfl
     "b.js" "a.js" (by decide) ⟨"nsA", by decide, by decide, rfl⟩⟩

theorem mem_addKey_inv {p k : String} {l : List String}
    (h : p ∈ addKey l k) : p ∈ l ∨ p = k := by
  unfold addKey at h
  split at h
  · exact Or.inl h
  · rcases List.mem_append.mp h with h1 | h1
    · exact Or.inl h1
    · exact Or.inr (List.mem_singleton.mp h1)

theorem writeScripts_skip {inject : String → Bool} {stx : LoaderState}
    {res : RunResult}
    (hall : ∀ p ∈ stx.included, p ∈ stx.deps.written ∨ p ∈ stx.deps.visited)
    (hsafe : ∀ s ∈ stx.included, s ∉ stx.deps.written → s ∈ stx.deps.visited →
      s ≠ "" ∧ (stx.basePath ++ s) ∈ stx.deps.written)
    (hres : writeScripts inject stx = some res) :
    res.injected = [] ∧ res.error = none := by
  obtain ⟨w₂, hloop, hvisEq, hscr⟩ :=
    includedLoop_shortcut stx stx.included ⟨stx.deps.visited, []⟩ hall
  have hskip : ∀ s ∈ w₂.scripts, s ≠ "" ∧
      ((setVisited stx w₂.visited).basePath ++ s) ∈
        (setVisited stx w₂.visited).deps.written := by
    intro s hs
    rcases hscr s hs with h0 | ⟨hmem, hnw, hv⟩
    · cases h0
    · exact hsafe s hmem hnw hv
  rw [writeScripts, hloop] at hres
  have hres' : some (injectLoop inject (setVisited stx w₂.visited)
      w₂.scripts []) = some res := hres
  rw [injectLoop_all_skip inject w₂.scripts (setVisited stx w₂.visited) []
    hskip] at hres'
  injection hres' with h1
  rw [← h1]
  exact ⟨rfl, rfl⟩

/-- C8: resolution is idempotent.  After a request whose pass completed with
no error and all of whose injections succeeded (every source passed to the
capability ended up in the written record), immediately requesting the same
namespace again produces an empty injection sequence and no error — the
repeated walk only re-emits already-visited seeds, whose sources the
injection loop skips as already written.  Moreover, for any request at all,
no source already in the written record when the pass starts is ever passed
to the injection capability again. -/
theorem C8_idempotent (st : LoaderState) (n : String) (inject : String → Bool)
    (res1 res2 : RunResult)
    (h1 : requireNs n inject st = some res1)
    (herr : res1.error = none)
    (hsucc : ∀ s ∈ res1.injected, s ∈ res1.state.deps.written)
    (h2 : requireNs n inject res1.state = some res2) :
    (res2.injected = [] ∧ res2.error = none) ∧
    (∀ (stx : LoaderState) (m : String) (inj : String → Bool)
      (resx : RunResult), requireNs m inj stx = some resx →
      ∀ s ∈ stx.deps.written, s ∉ resx.injected) := by
  constructor
  · rcases requireNs_inv h1 with ⟨hp1, rfl⟩ | ⟨_, _, rfl⟩ | ⟨path, hp, hl, hws⟩
    · rw [requireNs, if_pos hp1] at h2
      injection h2 with h2'
      rw [← h2']
      exact ⟨rfl, rfl⟩
    · simp at herr
    · rcases writeScripts_inv hws with ⟨w, e, hil, rfl⟩ | ⟨w, hil, rfl⟩
      · simp at herr
      · obtain ⟨wr, hst, hsub⟩ := injectLoop_shape inject w.scripts
          (setVisited { st with included := addKey st.included path }
            w.visited) []
        rw [hst] at h2 hsucc
        rcases requireNs_inv h2 with ⟨hpx, rfl⟩ | ⟨_, hlx, rfl⟩ |
          ⟨path2, hpx, hlx, hws2⟩
        · exact ⟨rfl, rfl⟩
        · have hlx' : alookup st.deps.nameToPath n = none := hlx
          rw [hl] at hlx'
          cases hlx'
        · have hlx' : alookup st.deps.nameToPath n = some path2 := hlx
          rw [hl] at hlx'
          injection hlx' with hpath
          subst hpath
          have hseeds : ∀ p ∈ addKey st.included path,
              p ∈ st.deps.written ∨ p ∈ w.visited := by
            intro p hpmem
            exact includedLoop_seeds
              { st with included := addKey st.included path }
              (walkFuel { st with included := addKey st.included path })
              (addKey st.included path) ⟨st.deps.visited, []⟩ w hil p hpmem
          refine writeScripts_skip ?_ ?_ hws2
          · intro p hpmem
            have hp' : p ∈ addKey (addKey st.included path) path := hpmem
            have hp2 : p ∈ addKey st.included path := by
              rcases mem_addKey_inv hp' with h3 | rfl
              · exact h3
              · exact addKey_mem st.included p
            rcases hseeds p hp2 with hw1 | hv1
            · exact Or.inl (hsub p hw1)
            · exact Or.inr hv1
          · intro s hmem hnw hv
            have hmem0 : s ∈ addKey (addKey st.included path) path := hmem
            have hnw0 : s ∉ st.deps.written := fun hc => hnw (hsub s hc)
            have hmem' : s ∈ addKey st.included path := by
              rcases mem_addKey_inv hmem0 with h3 | rfl
              · exact h3
              · exact addKey_mem st.included s
            have hscripts1 : s ∈ w.scripts :=
              includedLoop_seed_scripts
                { st with included := addKey st.included path } _ _ _ _
                hil s hmem' hnw0
            refine ⟨injectLoop_no_empty inject w.scripts _ [] herr s
              hscripts1, ?_⟩
            rcases injectLoop_covers inject w.scripts _ [] herr s hscripts1
              with h3 | h3 | h3
            · exact hsucc _ h3
            · exact hsub _ h3
            · cases h3
  · intro stx m inj resx hx s hs
    rcases requireNs_inv hx with ⟨_, rfl⟩ | ⟨_, _, rfl⟩ | ⟨pathx, hpx, hlx, hwsx⟩
    · exact List.not_mem_nil s
    · exact List.not_mem_nil s
    · rcases writeScripts_inv hwsx with ⟨w, e, hil, rfl⟩ | ⟨w, hil, rfl⟩
      · exact List.not_mem_nil s
      · exact injectLoop_no_rewrite inj w.scripts _ [] s hs (List.not_mem_nil s)

/-- C8 (witness): after the successful chain request (`m1.js`, `m2.js` both
injected and written), requesting `y` again injects nothing and raises no
error. -/
theorem C8_witness :
    runChain2.injected = [] ∧ runChain2.error = none :=
  (C8_idempotent stateChain "y" alwaysInject runChain runChain2 rfl rfl
    (by decide) rfl).1

end ClosureBase
